import Mathlib

/-!
# dfm: profile removal (`commands/remove.go`)

A shallow embedding of `RemoveSymlinks` and of the `Run` function of the
`remove` command, together with the part of the operating system they talk
to (`os.Readlink`, `os.Remove`, `os.RemoveAll`, standard output).

Modelling conventions

* A filesystem is a finite tree of directories, regular files and symbolic
  links, stored as a list of entries keyed by their location (the names from
  the root down, no symbolic link among them), together with the current
  directory. Names are case sensitive.
* A path string is resolved the way POSIX does: component by component from
  the root or the current directory, following the symbolic links met on the
  way (at most `MAXSYMLINKS`), `.` and `..` included; the final name is not
  followed. Two path strings can therefore name the same entry, and deleting
  a symbolic link takes away every path that was resolved through it.
* `os.Remove` deletes a symbolic link, a file or an empty directory, as
  `unlink` followed by `rmdir` does.
* Go strings are modelled by Lean strings, `strings.Contains` by the infix
  test on their character sequences.
* Whatever else makes the operating system refuse a call (permissions, a busy
  mount point, a read-only filesystem) is the `Policy` parameter, which is
  asked first and can answer with any error.
* `os.RemoveAll`, `filepath.Join`, `config.ProfileDir`, `utils.GenerateSymlinks`
  and the environment variable `HOME` are not part of `remove.go`; they are
  parameters of `Run`.
* Standard output is the list of the chunks written, in order.
-/

set_option maxRecDepth 100000

namespace Dfm

deriving instance DecidableEq for Except

/-! ## Data model -/

/-- Error numbers the system calls used here can report. -/
inductive Errno where
  | ENOENT
  | EINVAL
  | EACCES
  | EPERM
  | ENOTEMPTY
  | EBUSY
  | EROFS
  | ENOTDIR
  | EISDIR
  | ELOOP
  | ENAMETOOLONG
deriving DecidableEq, Repr

/-- Text of an error number, as `syscall.Errno.Error` prints it. -/
def Errno.Error : Errno → String
  | .ENOENT => "no such file or directory"
  | .EINVAL => "invalid argument"
  | .EACCES => "permission denied"
  | .EPERM => "operation not permitted"
  | .ENOTEMPTY => "directory not empty"
  | .EBUSY => "device or resource busy"
  | .EROFS => "read-only file system"
  | .ENOTDIR => "not a directory"
  | .EISDIR => "is a directory"
  | .ELOOP => "too many levels of symbolic links"
  | .ENAMETOOLONG => "file name too long"

/-- Go's `*os.PathError`: the operation, the path and the underlying error. -/
structure PathError where
  Op : String
  Path : String
  Err : Errno
deriving DecidableEq, Repr

/-- The method `(*PathError).Error`. -/
def PathError.Error (e : PathError) : String :=
  e.Op ++ " " ++ e.Path ++ ": " ++ e.Err.Error

/-- What a directory entry can be. -/
inductive Entry where
  | symlink (target : String)
  | file
  | dir
deriving DecidableEq, Repr

/-- The location of an entry: the names from the root directory down to it,
none of them a symbolic link. The root directory is `[]`. -/
abbrev Loc := List String

/-- A filesystem: its entries by location, and the current directory. -/
structure FS where
  entries : List (Loc × Entry)
  cwd : Loc
deriving DecidableEq, Repr

/-- The first entry stored under a location. -/
def lookup : List (Loc × Entry) → Loc → Option Entry
  | [], _ => none
  | (k, e) :: rest, loc => if k = loc then some e else lookup rest loc

/-- The entry at a location; the root is always a directory. -/
def FS.get (fs : FS) (loc : Loc) : Option Entry :=
  if loc = [] then some .dir else lookup fs.entries loc

/-- The entries without those stored under a location. -/
def eraseKey : List (Loc × Entry) → Loc → List (Loc × Entry)
  | [], _ => []
  | (k, e) :: rest, loc => if k = loc then eraseKey rest loc else (k, e) :: eraseKey rest loc

/-- The filesystem without the entry at a location. -/
def FS.erase (fs : FS) (loc : Loc) : FS :=
  ⟨eraseKey fs.entries loc, fs.cwd⟩

/-- Whether some entry is stored directly inside the directory at `loc`. -/
def FS.hasChild (fs : FS) (loc : Loc) : Bool :=
  fs.entries.any (fun ke => decide (ke.1 ≠ [] ∧ ke.1.dropLast = loc))

/-- The filesystem `a` is `b` with some entries deleted. -/
def FS.Sub (a b : FS) : Prop :=
  a.cwd = b.cwd ∧ ∀ q e, a.get q = some e → b.get q = some e

/-- The type `utils.LinkInfo`: a planned link from `Dest` to `Source`. Only
`Dest` is used by `remove.go`. -/
structure LinkInfo where
  Source : String
  Dest : String
deriving DecidableEq, Repr

/-- What the operating system refuses apart from what the tree itself
decides. `readDenied p` is the error `readlink` reports for the path `p`
whatever it names; `removeDenied fs p` is the error deleting `p` reports in
the filesystem `fs`. Both are asked before the path is resolved. -/
structure Policy where
  readDenied : String → Option Errno
  removeDenied : FS → String → Option Errno

/-- The package-level flags `DryRun` and `Verbose` of package `commands`. -/
structure Flags where
  DryRun : Bool
  Verbose : Bool
deriving DecidableEq, Repr

/-- The state of the outside world a command acts on. -/
structure World where
  fs : FS
  stdout : List String
deriving DecidableEq, Repr

/-! ## Path resolution -/

/-- The longest name of a directory entry, in bytes. -/
def NAME_MAX : Nat := 255

/-- The longest path, in bytes, the terminating zero included. -/
def PATH_MAX : Nat := 4096

/-- The number of symbolic links one resolution may follow. -/
def MAXSYMLINKS : Nat := 40

/-- The pieces of a character sequence between its slashes, empty ones kept. -/
def splitSlash : List Char → List (List Char)
  | [] => [[]]
  | c :: cs =>
    if c = '/' then [] :: splitSlash cs
    else
      match splitSlash cs with
      | [] => [[c]]
      | h :: t => (c :: h) :: t

/-- The components of a path string. -/
def components (path : String) : List String :=
  (splitSlash path.data).map String.mk

/-- Whether a path string starts at the root. -/
def isAbs (path : String) : Bool :=
  path.data.head? = some '/'

/-- The components of a path string without the empty ones at its end. -/
def names (path : String) : List String :=
  ((components path).reverse.dropWhile (fun c => decide (c = ""))).reverse

/-- Whether a path string ends in a slash. -/
def slashed (path : String) : Bool :=
  decide ((names path).length < (components path).length)

/-- The outcome of walking along components: the locations looked up, in
order, and the directory reached or the error met. -/
abbrev Walk := List Loc × Except Errno Loc

/-- One more location looked up before the walk `r`. -/
def Walk.visit (q : Loc) (r : Walk) : Walk := (q :: r.1, r.2)

/-- Walking from the directory `cur` along components, every one of which
has to lead to a directory; `follow` continues the walk after a symbolic
link. -/
def walkWith (follow : Loc → List String → Walk) (fs : FS) : Loc → List String → Walk
  | cur, [] => ([], .ok cur)
  | cur, c :: rest =>
    if c = "" ∨ c = "." then walkWith follow fs cur rest
    else if c = ".." then walkWith follow fs cur.dropLast rest
    else if NAME_MAX < c.utf8ByteSize then ([], .error .ENAMETOOLONG)
    else
      match fs.get (cur ++ [c]) with
      | none => ([cur ++ [c]], .error .ENOENT)
      | some .file => ([cur ++ [c]], .error .ENOTDIR)
      | some .dir => (walkWith follow fs (cur ++ [c]) rest).visit (cur ++ [c])
      | some (.symlink target) =>
        if target = "" then ([cur ++ [c]], .error .ENOENT)
        else
          (follow (if isAbs target then [] else cur) (components target ++ rest)).visit
            (cur ++ [c])

/-- Walking along components with `n` symbolic links still allowed plus one. -/
def walk : Nat → FS → Loc → List String → Walk
  | 0, _, _, _ => ([], .error .ELOOP)
  | n + 1, fs, cur, comps => walkWith (walk n fs) fs cur comps

/-- The error a path string meets before any lookup: a zero byte in it (Go
refuses such a string), the empty path, a path that is too long. -/
def badPath (path : String) : Option Errno :=
  if path.data.contains (Char.ofNat 0) then some .EINVAL
  else if path = "" then some .ENOENT
  else if PATH_MAX ≤ path.utf8ByteSize then some .ENAMETOOLONG
  else none

/-- What a path string names: an entry of a directory (which need not
exist), or a directory reached through `.`, `..` or as the root, with the
error `rmdir` reports for such a path. -/
inductive Target where
  | entry (loc : Loc)
  | directory (loc : Loc) (err : Errno)
deriving DecidableEq, Repr

/-- Resolution of a path string without following its final name: the
locations looked up (the final one included) and what the path names. -/
def locate (fs : FS) (path : String) : List Loc × Except Errno Target :=
  match badPath path with
  | some e => ([], .error e)
  | none =>
    match (names path).getLast? with
    | none => ([], .ok (.directory [] .EBUSY))
    | some last =>
      let r := walk (MAXSYMLINKS + 1) fs (if isAbs path then [] else fs.cwd) (names path).dropLast
      match r.2 with
      | .error e => (r.1, .error e)
      | .ok dir =>
        if last = "." then (r.1, .ok (.directory dir .EINVAL))
        else if last = ".." then (r.1, .ok (.directory dir.dropLast .ENOTEMPTY))
        else if NAME_MAX < last.utf8ByteSize then (r.1, .error .ENAMETOOLONG)
        else (r.1 ++ [dir ++ [last]], .ok (.entry (dir ++ [last])))

/-- The entry a path string names, a final symbolic link not followed;
`none` when the path names nothing. -/
def entryAt (fs : FS) (path : String) : Option Entry :=
  match (locate fs path).2 with
  | .error _ => none
  | .ok (.directory _ _) => some .dir
  | .ok (.entry loc) => fs.get loc

/-! ## Operating-system calls -/

/-- The call `os.Readlink(name)`: the target string of the symbolic link that
`name` names. The target itself is not looked at. A path that ends in a slash
is followed to the end and never names a symbolic link. -/
def Readlink (pol : Policy) (fs : FS) (name : String) : Except PathError String :=
  match pol.readDenied name with
  | some e => .error ⟨"readlink", name, e⟩
  | none =>
    if slashed name then
      match badPath name with
      | some e => .error ⟨"readlink", name, e⟩
      | none =>
        match (walk (MAXSYMLINKS + 1) fs (if isAbs name then [] else fs.cwd) (names name)).2 with
        | .error e => .error ⟨"readlink", name, e⟩
        | .ok _ => .error ⟨"readlink", name, .EINVAL⟩
    else
      match (locate fs name).2 with
      | .error e => .error ⟨"readlink", name, e⟩
      | .ok (.directory _ _) => .error ⟨"readlink", name, .EINVAL⟩
      | .ok (.entry loc) =>
        match fs.get loc with
        | none => .error ⟨"readlink", name, .ENOENT⟩
        | some (.symlink target) => .ok target
        | some _ => .error ⟨"readlink", name, .EINVAL⟩

/-- The call `os.Remove(name)`: `unlink`, then `rmdir`. It deletes the one
entry `name` names: a symbolic link or a file, or a directory that is empty. -/
def Remove (pol : Policy) (fs : FS) (name : String) : Except PathError FS :=
  match pol.removeDenied fs name with
  | some e => .error ⟨"remove", name, e⟩
  | none =>
    match (locate fs name).2 with
    | .error e => .error ⟨"remove", name, e⟩
    | .ok (.directory _ e) => .error ⟨"remove", name, e⟩
    | .ok (.entry loc) =>
      match fs.get loc with
      | none => .error ⟨"remove", name, .ENOENT⟩
      | some .dir =>
        if fs.hasChild loc then .error ⟨"remove", name, .ENOTEMPTY⟩
        else .ok (fs.erase loc)
      | some _ =>
        if slashed name then .error ⟨"remove", name, .ENOTDIR⟩
        else .ok (fs.erase loc)

/-- Whether the character sequence `s` has `sub` starting at some position. -/
def containsAt : List Char → List Char → Bool
  | [], sub => sub.isEmpty
  | c :: cs, sub => sub.isPrefixOf (c :: cs) || containsAt cs sub

/-- The call `strings.Contains(s, substr)`. -/
def Contains (s substr : String) : Bool :=
  containsAt s.data substr.data

/-- One chunk written to standard output. -/
def World.print (w : World) (s : String) : World :=
  ⟨w.fs, w.stdout ++ [s]⟩

/-! ## `RemoveSymlinks` -/

/-- The condition of the `if` in the loop of `RemoveSymlinks`:
`err != nil || strings.Contains(path, username)`. -/
def removable (pol : Policy) (fs : FS) (username : String) (link : LinkInfo) : Bool :=
  match Readlink pol fs link.Dest with
  | .error _ => true
  | .ok path => Contains path username

/-- The function `RemoveSymlinks(l, username)`: the returned `error` (`none`
for `nil`) and the world it leaves. -/
def RemoveSymlinks (flags : Flags) (pol : Policy) (l : List LinkInfo)
    (username : String) (w : World) : Option PathError × World :=
  match l with
  | [] => (none, w)
  | link :: rest =>
    if removable pol w.fs username link then
      let w1 := if flags.DryRun || flags.Verbose then
        w.print ("Removing symlink " ++ link.Dest ++ "\n") else w
      if !flags.DryRun then
        match Remove pol w1.fs link.Dest with
        | .error err => (some err, w1)
        | .ok fs1 => RemoveSymlinks flags pol rest username ⟨fs1, w1.stdout⟩
      else
        RemoveSymlinks flags pol rest username w1
    else
      RemoveSymlinks flags pol rest username w

/-- The world after the report of a removable link when `DryRun` is off. -/
def reported (flags : Flags) (w : World) (link : LinkInfo) : World :=
  if flags.Verbose then w.print ("Removing symlink " ++ link.Dest ++ "\n") else w

/-! ## The `remove` command -/

/-- How a run of the command ends: the exit status of the process (`0` when
`Run` returns, `1` after `os.Exit(1)`) and the world it leaves. -/
structure Outcome where
  status : Nat
  world : World
deriving DecidableEq, Repr

/-- The `Run` function of the `Remove` command. `args` is `profile :: more`
(`cobra.MinimumNArgs(1)` admits nothing shorter). -/
def Run (flags : Flags) (pol : Policy)
    (ProfileDir : String) (HOME : String)
    (Join : String → String → String)
    (GenerateSymlinks : FS → String → String → List LinkInfo)
    (RemoveAll : FS → String → Option PathError × FS)
    (profile : String) (_more : List String) (w : World) : Outcome :=
  let userDir := Join ProfileDir profile
  let links := GenerateSymlinks w.fs userDir HOME
  match RemoveAll w.fs userDir with
  | (some rmerr, fs1) =>
    ⟨1, (World.mk fs1 w.stdout).print ("ERROR: " ++ rmerr.Error ++ "\n")⟩
  | (none, fs1) =>
    let w1 : World := ⟨fs1, w.stdout⟩
    let w2 := if flags.Verbose then
      w1.print ("Removed profile directory: " ++ userDir ++ "\n") else w1
    match RemoveSymlinks flags pol links profile w2 with
    | (some err, w3) => ⟨1, w3.print ("ERROR: " ++ err.Error ++ "\n")⟩
    | (none, w3) => ⟨0, w3⟩

/-! ## Concrete worlds used in the examples -/

/-- No call is refused by policy. -/
def permissive : Policy := ⟨fun _ => none, fun _ _ => none⟩

/-- Deleting `/home/u/.bashrc` is refused, everything else is allowed. -/
def lockedBashrc : Policy :=
  ⟨fun _ => none, fun _ p => if p = "/home/u/.bashrc" then some .EACCES else none⟩

/-- The directories from the root down to the profiles directory. -/
def homeDirs : List (Loc × Entry) :=
  [(["home"], .dir), (["home", "u"], .dir), (["home", "u", ".config"], .dir),
   (["home", "u", ".config", "dfm"], .dir),
   (["home", "u", ".config", "dfm", "profiles"], .dir)]

/-- The profile `home` on disk, with its file `.vimrc`. -/
def profileHome : List (Loc × Entry) :=
  [(["home", "u", ".config", "dfm", "profiles", "home"], .dir),
   (["home", "u", ".config", "dfm", "profiles", "home", ".vimrc"], .file)]

/-- The home directory after switching from profile `work` to profile
`home` for `.vimrc`: `~/.vimrc` points into `profiles/home`, `~/.bashrc`
still into `profiles/work`, whose directory is already deleted. -/
def fsSwitched : FS :=
  ⟨homeDirs ++ profileHome ++
    [(["home", "u", ".vimrc"], .symlink "/home/u/.config/dfm/profiles/home/.vimrc"),
     (["home", "u", ".bashrc"], .symlink "/home/u/.config/dfm/profiles/work/.bashrc")],
   ["home", "u"]⟩

def linkVimrc : LinkInfo := ⟨"/home/u/.config/dfm/profiles/work/.vimrc", "/home/u/.vimrc"⟩

def linkBashrc : LinkInfo := ⟨"/home/u/.config/dfm/profiles/work/.bashrc", "/home/u/.bashrc"⟩

def linkProfile : LinkInfo := ⟨"/home/u/.config/dfm/profiles/work/.profile", "/home/u/.profile"⟩

def linkZshrc : LinkInfo := ⟨"/home/u/.config/dfm/profiles/work/.zshrc", "/home/u/.zshrc"⟩

/-- The plan of profile `work` with the single file `.vimrc`. -/
def planWork : List LinkInfo := [linkVimrc]

/-- A plan of profile `work` with two files. -/
def planTwo : List LinkInfo := [linkBashrc, linkVimrc]

/-- Profile `work` is active and its directory is already gone: `~/.vimrc`
points into `profiles/work`, and there is no `~/.bashrc`. -/
def fsActive : FS :=
  ⟨homeDirs ++
    [(["home", "u", ".vimrc"], .symlink "/home/u/.config/dfm/profiles/work/.vimrc")],
   ["home", "u"]⟩

/-- A dangling link: `~/.vimrc` points into `profiles/home`, and there is no
such profile. -/
def fsDangling : FS :=
  ⟨homeDirs ++
    [(["home", "u", ".vimrc"], .symlink "/home/u/.config/dfm/profiles/home/.vimrc")],
   ["home", "u"]⟩

/-- Three links of profile `work` in the home directory. -/
def fsThree : FS :=
  ⟨homeDirs ++
    [(["home", "u", ".vimrc"], .symlink "/home/u/.config/dfm/profiles/work/.vimrc"),
     (["home", "u", ".bashrc"], .symlink "/home/u/.config/dfm/profiles/work/.bashrc"),
     (["home", "u", ".zshrc"], .symlink "/home/u/.config/dfm/profiles/work/.zshrc")],
   ["home", "u"]⟩

/-- A link of profile `home` reached through a symbolic link to a directory
whose name contains `work`: `~/d` points to the directory `~/work`, and
`~/work/.vimrc` points into `profiles/home`. -/
def fsAlias : FS :=
  ⟨homeDirs ++ profileHome ++
    [(["home", "u", "work"], .dir),
     (["home", "u", "d"], .symlink "/home/u/work"),
     (["home", "u", "work", ".vimrc"], .symlink "/home/u/.config/dfm/profiles/home/.vimrc")],
   ["home", "u"]⟩

/-- The plan for `fsAlias`: the link `~/d` and the link below it. -/
def planAlias : List LinkInfo :=
  [⟨"/home/u/.config/dfm/profiles/work/d", "/home/u/d"⟩,
   ⟨"/home/u/.config/dfm/profiles/work/d/.vimrc", "/home/u/d/.vimrc"⟩]

/-- Two paths to one entry: `~/d` points to the directory `~/real`, and
`~/real/.vimrc` is a link into `profiles/work`. -/
def fsShared : FS :=
  ⟨homeDirs ++
    [(["home", "u", "real"], .dir),
     (["home", "u", "d"], .symlink "/home/u/real"),
     (["home", "u", "real", ".vimrc"], .symlink "/home/u/.config/dfm/profiles/work/.vimrc")],
   ["home", "u"]⟩

def linkThroughD : LinkInfo := ⟨"/home/u/.config/dfm/profiles/work/d/.vimrc", "/home/u/d/.vimrc"⟩

def linkReal : LinkInfo := ⟨"/home/u/.config/dfm/profiles/work/real/.vimrc", "/home/u/real/.vimrc"⟩

/-- Profile `work` is active and still on disk. -/
def fsInstalled : FS :=
  ⟨homeDirs ++
    [(["home", "u", ".config", "dfm", "profiles", "work"], .dir),
     (["home", "u", ".config", "dfm", "profiles", "work", ".vimrc"], .file),
     (["home", "u", ".vimrc"], .symlink "/home/u/.config/dfm/profiles/work/.vimrc")],
   ["home", "u"]⟩

/-- A simple `filepath.Join` for two clean path elements. -/
def joinPath (a b : String) : String := a ++ "/" ++ b

/-- A planner that finds the single file `.vimrc` in the profile. -/
def planVimrc (_fs : FS) (userDir home : String) : List LinkInfo :=
  [⟨userDir ++ "/.vimrc", home ++ "/.vimrc"⟩]

/-- An `os.RemoveAll` that is refused and deletes nothing. -/
def removeAllDenied (fs : FS) (path : String) : Option PathError × FS :=
  (some ⟨"unlinkat", path, .EACCES⟩, fs)

/-- An `os.RemoveAll` that succeeds on a clean absolute path: the entry there
and everything below it is gone. -/
def removeAllTree (fs : FS) (path : String) : Option PathError × FS :=
  (none, ⟨fs.entries.filter
    (fun ke => !((components path).filter (fun c => decide (c ≠ ""))).isPrefixOf ke.1), fs.cwd⟩)

/-! ## Store -/

theorem lookup_eraseKey (es : List (Loc × Entry)) (loc q : Loc) :
    lookup (eraseKey es loc) q = if q = loc then none else lookup es q := by
  induction es with
  | nil => simp [lookup, eraseKey]
  | cons ke rest ih =>
    obtain ⟨k, e⟩ := ke
    by_cases hk : k = loc
    · subst hk
      simp only [eraseKey, ↓reduceIte, ih, lookup]
      by_cases hq : q = k
      · simp [hq]
      · simp [hq, Ne.symm hq]
    · simp only [eraseKey, hk, ↓reduceIte, lookup, ih]
      by_cases hkq : k = q
      · subst hkq
        simp [hk]
      · simp [hkq]

/-- The erased location holds nothing. -/
theorem erase_get_self (fs : FS) (loc : Loc) (h : loc ≠ []) : (fs.erase loc).get loc = none := by
  simp [FS.get, FS.erase, h, lookup_eraseKey]

/-- Erasing a location leaves every other location as it was. -/
theorem erase_get_other (fs : FS) (loc q : Loc) (h : q ≠ loc) :
    (fs.erase loc).get q = fs.get q := by
  simp [FS.get, FS.erase, h, lookup_eraseKey]

theorem FS.Sub.refl (a : FS) : a.Sub a := ⟨rfl, fun _ _ h => h⟩

theorem FS.Sub.trans {a b c : FS} (h1 : a.Sub b) (h2 : b.Sub c) : a.Sub c :=
  ⟨h1.1.trans h2.1, fun q e h => h2.2 q e (h1.2 q e h)⟩

/-- Erasing only deletes. -/
theorem erase_sub (fs : FS) (loc : Loc) : (fs.erase loc).Sub fs := by
  refine ⟨rfl, fun q e h => ?_⟩
  by_cases hq : q = loc
  · subst hq
    by_cases hn : q = []
    · subst hn
      simpa [FS.get] using h
    · rw [erase_get_self fs q hn] at h
      cases h
  · rwa [erase_get_other fs loc q hq] at h

/-! ## Path resolution -/

theorem walkWith_agree (f g : Loc → List String → Walk) (a b : FS)
    (hf : ∀ cur comps, (∀ q ∈ (g cur comps).1, a.get q = b.get q) → f cur comps = g cur comps) :
    ∀ comps cur, (∀ q ∈ (walkWith g b cur comps).1, a.get q = b.get q) →
      walkWith f a cur comps = walkWith g b cur comps := by
  intro comps
  induction comps with
  | nil => intro cur _; rfl
  | cons c rest ih =>
    intro cur h
    rw [walkWith] at h ⊢
    rw [walkWith]
    by_cases h1 : c = "" ∨ c = "."
    · simp only [h1, ↓reduceIte] at h ⊢
      exact ih cur h
    · simp only [h1, ↓reduceIte] at h ⊢
      by_cases h2 : c = ".."
      · simp only [h2, ↓reduceIte] at h ⊢
        exact ih _ h
      · simp only [h2, ↓reduceIte] at h ⊢
        by_cases h3 : NAME_MAX < c.utf8ByteSize
        · simp only [h3, ↓reduceIte]
        · simp only [h3, ↓reduceIte] at h ⊢
          cases hg : b.get (cur ++ [c]) with
          | none =>
            simp only [hg] at h
            rw [h (cur ++ [c]) (by simp), hg]
          | some e =>
            cases e with
            | file =>
              simp only [hg] at h
              rw [h (cur ++ [c]) (by simp), hg]
            | dir =>
              simp only [hg, Walk.visit] at h
              rw [h (cur ++ [c]) (by simp), hg]
              simp only
              rw [ih (cur ++ [c]) (fun q hq => h q (by simp [hq]))]
            | symlink target =>
              simp only [hg] at h
              by_cases h4 : target = ""
              · simp only [h4, ↓reduceIte] at h
                rw [h (cur ++ [c]) (by simp), hg]
                simp only [h4, ↓reduceIte]
              · simp only [h4, ↓reduceIte, Walk.visit] at h
                rw [h (cur ++ [c]) (by simp), hg]
                simp only [h4, ↓reduceIte]
                rw [hf _ _ (fun q hq => h q (by simp [hq]))]

/-- A walk gives the same outcome in two filesystems that agree on every
location it looks up. -/
theorem walk_agree (a b : FS) (n : Nat) (cur : Loc) (comps : List String)
    (h : ∀ q ∈ (walk n b cur comps).1, a.get q = b.get q) :
    walk n a cur comps = walk n b cur comps := by
  induction n generalizing cur comps with
  | zero => rfl
  | succ n ih =>
    rw [walk] at h ⊢
    rw [walk]
    exact walkWith_agree _ _ a b (fun cur comps h => ih cur comps h) comps cur h

/-- A walk that succeeds in a filesystem with fewer entries is the same walk
in the larger one. -/
theorem walkWith_mono (f g : Loc → List String → Walk) (a b : FS)
    (hsub : ∀ q e, a.get q = some e → b.get q = some e)
    (hf : ∀ cur comps r, (f cur comps).2 = .ok r → g cur comps = f cur comps) :
    ∀ comps cur r, (walkWith f a cur comps).2 = .ok r →
      walkWith g b cur comps = walkWith f a cur comps := by
  intro comps
  induction comps with
  | nil => intro cur r _; rfl
  | cons c rest ih =>
    intro cur r h
    rw [walkWith] at h ⊢
    rw [walkWith]
    by_cases h1 : c = "" ∨ c = "."
    · simp only [h1, ↓reduceIte] at h ⊢
      exact ih cur r h
    · simp only [h1, ↓reduceIte] at h ⊢
      by_cases h2 : c = ".."
      · simp only [h2, ↓reduceIte] at h ⊢
        exact ih _ r h
      · simp only [h2, ↓reduceIte] at h ⊢
        by_cases h3 : NAME_MAX < c.utf8ByteSize
        · simp only [h3, ↓reduceIte]
        · simp only [h3, ↓reduceIte] at h ⊢
          cases hg : a.get (cur ++ [c]) with
          | none => simp [hg] at h
          | some e =>
            rw [hsub _ _ hg]
            cases e with
            | file => simp [hg] at h
            | dir =>
              simp only [hg, Walk.visit] at h ⊢
              rw [ih (cur ++ [c]) r h]
            | symlink target =>
              simp only [hg] at h ⊢
              by_cases h4 : target = ""
              · simp [h4] at h
              · simp only [h4, ↓reduceIte, Walk.visit] at h ⊢
                rw [hf _ _ r h]

/-- A walk that succeeds in a filesystem with fewer entries is the same walk
in the larger one. -/
theorem walk_mono (a b : FS) (hsub : ∀ q e, a.get q = some e → b.get q = some e)
    (n : Nat) (cur : Loc) (comps : List String) (r : Loc)
    (h : (walk n a cur comps).2 = .ok r) :
    walk n b cur comps = walk n a cur comps := by
  induction n generalizing cur comps r with
  | zero => rfl
  | succ n ih =>
    rw [walk] at h ⊢
    rw [walk]
    exact walkWith_mono _ _ a b hsub (fun cur comps r h => ih cur comps r h) comps cur r h

/-- The steps of the parent walk are among the steps of `locate`. -/
theorem locate_trace_walk (fs : FS) (path : String) (last : String)
    (hb : badPath path = none)
    (h3 : (names path).getLast? = some last) :
    ∀ q ∈ (walk (MAXSYMLINKS + 1) fs (if isAbs path then [] else fs.cwd)
        (names path).dropLast).1, q ∈ (locate fs path).1 := by
  intro q hq
  unfold locate
  simp only [hb, h3]
  split
  · exact hq
  · split
    · exact hq
    · split
      · exact hq
      · split
        · exact hq
        · exact List.mem_append_left _ hq

/-- Resolution is the same in two filesystems that agree on every location
it looks up. -/
theorem locate_agree (a b : FS) (path : String) (hcwd : a.cwd = b.cwd)
    (h : ∀ q ∈ (locate b path).1, a.get q = b.get q) :
    locate a path = locate b path := by
  cases hb : badPath path with
  | some e => simp [locate, hb]
  | none =>
    cases h3 : (names path).getLast? with
    | none => simp [locate, hb, h3]
    | some last =>
      have hw := walk_agree a b (MAXSYMLINKS + 1) (if isAbs path then [] else b.cwd)
        (names path).dropLast (fun q hq => h q (locate_trace_walk b path last hb h3 q hq))
      unfold locate
      simp only [hb, h3, hcwd, hw]

/-- A resolution that succeeds in a filesystem with fewer entries is the same
in the larger one: deleting entries never redirects a path. -/
theorem locate_mono (a b : FS) (path : String) (hsub : a.Sub b) (t : Target)
    (h : (locate a path).2 = .ok t) :
    locate b path = locate a path := by
  cases hb : badPath path with
  | some e => simp [locate, hb]
  | none =>
    cases h3 : (names path).getLast? with
    | none => simp [locate, hb, h3]
    | some last =>
      cases hr : (walk (MAXSYMLINKS + 1) a (if isAbs path then [] else a.cwd)
          (names path).dropLast).2 with
      | error e =>
        unfold locate at h
        simp [hb, h3, hr] at h
      | ok dir =>
        have hw := walk_mono a b hsub.2 _ _ _ dir hr
        unfold locate
        simp only [hb, h3, ← hsub.1, hw]

/-- A named entry is never the root and is among the locations looked up. -/
theorem locate_entry (fs : FS) (path : String) (loc : Loc)
    (h : (locate fs path).2 = .ok (.entry loc)) :
    loc ≠ [] ∧ loc ∈ (locate fs path).1 := by
  unfold locate at h ⊢
  cases hb : badPath path with
  | some e => simp [hb] at h
  | none =>
  cases h3 : (names path).getLast? with
  | none => simp [hb, h3] at h
  | some last =>
    simp only [hb, h3] at h ⊢
    cases hr : (walk (MAXSYMLINKS + 1) fs (if isAbs path then [] else fs.cwd)
        (names path).dropLast).2 with
    | error e => simp [hr] at h
    | ok dir =>
      simp only [hr] at h ⊢
      by_cases h4 : last = "."
      · simp [h4] at h
      by_cases h5 : last = ".."
      · simp [h4, h5] at h
      by_cases h6 : NAME_MAX < last.utf8ByteSize
      · simp [h4, h5, h6] at h
      simp only [h4, h5, h6, ↓reduceIte, Except.ok.injEq, Target.entry.injEq] at h ⊢
      subst h
      simp

/-- The call `Readlink` succeeds exactly on a path without a final slash that
policy lets through and that names a symbolic link. -/
theorem Readlink_ok_iff (pol : Policy) (fs : FS) (p t : String) :
    Readlink pol fs p = .ok t ↔
      pol.readDenied p = none ∧ slashed p = false ∧
        ∃ loc, (locate fs p).2 = .ok (.entry loc) ∧ fs.get loc = some (.symlink t) := by
  unfold Readlink
  cases pol.readDenied p with
  | some e => simp
  | none =>
    cases hs : slashed p with
    | true =>
      simp only [↓reduceIte, true_and, Bool.true_eq_false, false_and, iff_false]
      cases badPath p with
      | some e => simp
      | none =>
        simp only []
        split <;> simp
    | false =>
      simp only [Bool.false_eq_true, ↓reduceIte, true_and]
      cases hl : (locate fs p).2 with
      | error e => simp
      | ok tg =>
        cases tg with
        | directory d e => simp
        | entry loc =>
          simp only [Except.ok.injEq, Target.entry.injEq, exists_eq_left']
          cases hg : fs.get loc with
          | none => simp
          | some e => cases e <;> simp

/-- The call `Remove` fails, or deletes the existing entry the path names. -/
theorem Remove_cases (pol : Policy) (fs : FS) (p : String) :
    (∃ err, Remove pol fs p = .error err) ∨
      ∃ loc, (locate fs p).2 = .ok (.entry loc) ∧ (fs.get loc).isSome = true ∧
        Remove pol fs p = .ok (fs.erase loc) := by
  cases hd : pol.removeDenied fs p with
  | some e => exact Or.inl ⟨⟨"remove", p, e⟩, by simp [Remove, hd]⟩
  | none =>
    cases hl : (locate fs p).2 with
    | error e => exact Or.inl ⟨⟨"remove", p, e⟩, by simp [Remove, hd, hl]⟩
    | ok tg =>
      cases tg with
      | directory d e => exact Or.inl ⟨⟨"remove", p, e⟩, by simp [Remove, hd, hl]⟩
      | entry loc =>
        cases hg : fs.get loc with
        | none => exact Or.inl ⟨⟨"remove", p, .ENOENT⟩, by simp [Remove, hd, hl, hg]⟩
        | some e =>
          cases e with
          | dir =>
            by_cases hc : fs.hasChild loc = true
            · exact Or.inl ⟨⟨"remove", p, .ENOTEMPTY⟩, by simp [Remove, hd, hl, hg, hc]⟩
            · exact Or.inr ⟨loc, rfl, by simp [hg], by simp [Remove, hd, hl, hg, hc]⟩
          | file =>
            by_cases hc : slashed p = true
            · exact Or.inl ⟨⟨"remove", p, .ENOTDIR⟩, by simp [Remove, hd, hl, hg, hc]⟩
            · exact Or.inr ⟨loc, rfl, by simp [hg], by simp [Remove, hd, hl, hg, hc]⟩
          | symlink t =>
            by_cases hc : slashed p = true
            · exact Or.inl ⟨⟨"remove", p, .ENOTDIR⟩, by simp [Remove, hd, hl, hg, hc]⟩
            · exact Or.inr ⟨loc, rfl, by simp [hg], by simp [Remove, hd, hl, hg, hc]⟩

/-- A successful `Remove` deleted the existing entry the path names. -/
theorem Remove_ok (pol : Policy) (fs fs1 : FS) (p : String)
    (h : Remove pol fs p = .ok fs1) :
    ∃ loc, (locate fs p).2 = .ok (.entry loc) ∧ (fs.get loc).isSome = true ∧
      fs1 = fs.erase loc := by
  rcases Remove_cases pol fs p with ⟨err, he⟩ | ⟨loc, hl, hg, hr⟩
  · rw [he] at h; cases h
  · rw [hr] at h
    injection h with h
    exact ⟨loc, hl, hg, h.symm⟩

/-- On a path that names nothing `Readlink` fails. -/
theorem entryAt_none_Readlink (pol : Policy) (fs : FS) (p : String)
    (h : entryAt fs p = none) : ∃ err, Readlink pol fs p = .error err := by
  cases hr : Readlink pol fs p with
  | error e => exact ⟨e, rfl⟩
  | ok t =>
    obtain ⟨_, _, loc, hl, hg⟩ := (Readlink_ok_iff pol fs p t).1 hr
    simp [entryAt, hl, hg] at h

/-- On a path that names nothing `Remove` fails. -/
theorem entryAt_none_Remove (pol : Policy) (fs : FS) (p : String)
    (h : entryAt fs p = none) : ∃ err, Remove pol fs p = .error err := by
  rcases Remove_cases pol fs p with he | ⟨loc, hl, hg, _⟩
  · exact he
  · simp [entryAt, hl] at h
    simp [h] at hg

/-- What a path names in a filesystem with fewer entries it names in the
larger one. -/
theorem entryAt_mono (a b : FS) (p : String) (hsub : a.Sub b) (e : Entry)
    (h : entryAt a p = some e) : entryAt b p = some e := by
  unfold entryAt at h ⊢
  cases hl : (locate a p).2 with
  | error err => simp [hl] at h
  | ok tg =>
    rw [locate_mono a b p hsub tg hl, hl]
    rw [hl] at h
    cases tg with
    | directory d err => exact h
    | entry loc => exact hsub.2 _ _ h

/-- A path that names nothing still names nothing after deletions. -/
theorem entryAt_mono_none (a b : FS) (p : String) (hsub : a.Sub b)
    (h : entryAt b p = none) : entryAt a p = none := by
  cases ha : entryAt a p with
  | none => rfl
  | some e => rw [entryAt_mono a b p hsub e ha] at h; cases h

/-- After the entry a path names is erased, the path names nothing. -/
theorem entryAt_erase (fs : FS) (p : String) (loc : Loc)
    (h : (locate fs p).2 = .ok (.entry loc)) : entryAt (fs.erase loc) p = none := by
  unfold entryAt
  cases hl : (locate (fs.erase loc) p).2 with
  | error err => rfl
  | ok tg =>
    have := locate_mono (fs.erase loc) fs p (erase_sub fs loc) tg hl
    rw [this, hl] at h
    injection h with h
    subst h
    exact erase_get_self fs loc (locate_entry fs p loc (by rw [this, hl])).1

/-- A target read in a filesystem with fewer entries is read in the larger
one. -/
theorem Readlink_mono (pol : Policy) (a b : FS) (p t : String) (hsub : a.Sub b)
    (h : Readlink pol a p = .ok t) : Readlink pol b p = .ok t := by
  obtain ⟨h1, h2, loc, hl, hg⟩ := (Readlink_ok_iff pol a p t).1 h
  refine (Readlink_ok_iff pol b p t).2 ⟨h1, h2, loc, ?_, hsub.2 _ _ hg⟩
  rw [locate_mono a b p hsub _ hl, hl]

/-- A target is still read where every location of the resolution is as it
was. -/
theorem Readlink_agree (pol : Policy) (a b : FS) (p t : String) (hcwd : a.cwd = b.cwd)
    (hag : ∀ q ∈ (locate b p).1, a.get q = b.get q)
    (h : Readlink pol b p = .ok t) : Readlink pol a p = .ok t := by
  obtain ⟨h1, h2, loc, hl, hg⟩ := (Readlink_ok_iff pol b p t).1 h
  refine (Readlink_ok_iff pol a p t).2 ⟨h1, h2, loc, ?_, ?_⟩
  · rw [locate_agree a b p hcwd hag, hl]
  · rw [hag loc (locate_entry b p loc hl).2, hg]

/-- A path names the same entry where every location of its resolution is as
it was. -/
theorem entryAt_agree (a b : FS) (p : String) (hcwd : a.cwd = b.cwd)
    (hag : ∀ q ∈ (locate b p).1, a.get q = b.get q) : entryAt a p = entryAt b p := by
  unfold entryAt
  rw [locate_agree a b p hcwd hag]
  cases hl : (locate b p).2 with
  | error err => rfl
  | ok tg =>
    cases tg with
    | directory d err => rfl
    | entry loc => exact hag loc (locate_entry b p loc hl).2

/-! ## The removability test -/

theorem removable_false_iff (pol : Policy) (fs : FS) (username : String) (link : LinkInfo) :
    removable pol fs username link = false ↔
      ∃ t, Readlink pol fs link.Dest = .ok t ∧ Contains t username = false := by
  unfold removable
  cases h : Readlink pol fs link.Dest with
  | error e => simp
  | ok t => simp

theorem removable_of_Readlink (pol : Policy) (fs : FS) (username : String) (link : LinkInfo)
    (t : String) (h : Readlink pol fs link.Dest = .ok t) :
    removable pol fs username link = Contains t username := by
  simp [removable, h]

theorem removable_dest (pol : Policy) (fs : FS) (username : String) (x y : LinkInfo)
    (h : x.Dest = y.Dest) : removable pol fs username x = removable pol fs username y := by
  simp [removable, h]

/-- A removable link stays removable after deletions. -/
theorem removable_mono (pol : Policy) (a b : FS) (username : String) (link : LinkInfo)
    (hsub : a.Sub b) (h : removable pol b username link = true) :
    removable pol a username link = true := by
  cases ha : removable pol a username link with
  | true => rfl
  | false =>
    obtain ⟨t, ht, hc⟩ := (removable_false_iff pol a username link).1 ha
    rw [removable_of_Readlink pol b username link t (Readlink_mono pol a b _ t hsub ht), hc] at h
    exact absurd h (by decide)

/-- A link whose `Dest` names nothing is removable. -/
theorem removable_absent (pol : Policy) (fs : FS) (username : String) (link : LinkInfo)
    (h : entryAt fs link.Dest = none) : removable pol fs username link = true := by
  obtain ⟨err, he⟩ := entryAt_none_Readlink pol fs link.Dest h
  simp [removable, he]

/-- Where the link still names the same existing entry, the test gives the
same answer in a filesystem and in one with fewer entries. -/
theorem removable_eq_of_present (pol : Policy) (a b : FS) (username : String) (link : LinkInfo)
    (hsub : a.Sub b) (loc : Loc) (hl : (locate a link.Dest).2 = .ok (.entry loc))
    (hg : a.get loc ≠ none) :
    removable pol a username link = removable pol b username link := by
  cases hb : removable pol b username link with
  | true => exact removable_mono pol a b username link hsub hb
  | false =>
    obtain ⟨t, ht, hc⟩ := (removable_false_iff pol b username link).1 hb
    obtain ⟨h1, h2, loc2, hl2, hg2⟩ := (Readlink_ok_iff pol b link.Dest t).1 ht
    rw [locate_mono a b link.Dest hsub _ hl, hl] at hl2
    injection hl2 with hl2
    injection hl2 with hl2
    subst hl2
    cases hga : a.get loc with
    | none => exact absurd hga hg
    | some e =>
      have := hsub.2 _ _ hga
      rw [hg2] at this
      injection this with this
      subst this
      rw [removable_of_Readlink pol a username link t
        ((Readlink_ok_iff pol a link.Dest t).2 ⟨h1, h2, loc, hl, hga⟩), hc]

/-! ## Unfolding `RemoveSymlinks` one link at a time -/

theorem print_fs (w : World) (s : String) : (w.print s).fs = w.fs := rfl

theorem RemoveSymlinks_cons_skip (flags : Flags) (pol : Policy) (link : LinkInfo)
    (rest : List LinkInfo) (username : String) (w : World)
    (h : removable pol w.fs username link = false) :
    RemoveSymlinks flags pol (link :: rest) username w
      = RemoveSymlinks flags pol rest username w := by
  simp [RemoveSymlinks, h]

theorem RemoveSymlinks_cons_dry (flags : Flags) (pol : Policy) (link : LinkInfo)
    (rest : List LinkInfo) (username : String) (w : World)
    (h : removable pol w.fs username link = true) (hd : flags.DryRun = true) :
    RemoveSymlinks flags pol (link :: rest) username w
      = RemoveSymlinks flags pol rest username
          (w.print ("Removing symlink " ++ link.Dest ++ "\n")) := by
  simp [RemoveSymlinks, h, hd]

theorem reported_fs (flags : Flags) (w : World) (link : LinkInfo) :
    (reported flags w link).fs = w.fs := by
  unfold reported
  cases flags.Verbose <;> rfl

theorem RemoveSymlinks_cons_err (flags : Flags) (pol : Policy) (link : LinkInfo)
    (rest : List LinkInfo) (username : String) (w : World) (err : PathError)
    (h : removable pol w.fs username link = true) (hd : flags.DryRun = false)
    (hr : Remove pol w.fs link.Dest = .error err) :
    RemoveSymlinks flags pol (link :: rest) username w = (some err, reported flags w link) := by
  unfold reported
  cases hv : flags.Verbose <;> simp [RemoveSymlinks, h, hd, hv, hr, print_fs]

theorem RemoveSymlinks_cons_ok (flags : Flags) (pol : Policy) (link : LinkInfo)
    (rest : List LinkInfo) (username : String) (w : World) (fs1 : FS)
    (h : removable pol w.fs username link = true) (hd : flags.DryRun = false)
    (hr : Remove pol w.fs link.Dest = .ok fs1) :
    RemoveSymlinks flags pol (link :: rest) username w
      = RemoveSymlinks flags pol rest username ⟨fs1, (reported flags w link).stdout⟩ := by
  unfold reported
  cases hv : flags.Verbose <;> simp [RemoveSymlinks, h, hd, hv, hr, print_fs]

/-! ## What a run can change -/

/-- A run only deletes entries. -/
theorem RemoveSymlinks_sub (flags : Flags) (pol : Policy) (username : String)
    (l : List LinkInfo) (w : World) :
    (RemoveSymlinks flags pol l username w).2.fs.Sub w.fs := by
  induction l generalizing w with
  | nil => exact FS.Sub.refl _
  | cons link rest ih =>
    cases hrem : removable pol w.fs username link with
    | false =>
      rw [RemoveSymlinks_cons_skip _ _ _ _ _ _ hrem]
      exact ih w
    | true =>
      cases hd : flags.DryRun with
      | true =>
        rw [RemoveSymlinks_cons_dry _ _ _ _ _ _ hrem hd]
        exact ih _
      | false =>
        rcases Remove_cases pol w.fs link.Dest with ⟨err, hr⟩ | ⟨loc, _, _, hr⟩
        · rw [RemoveSymlinks_cons_err _ _ _ _ _ _ _ hrem hd hr, reported_fs]
          exact FS.Sub.refl _
        · rw [RemoveSymlinks_cons_ok _ _ _ _ _ _ _ hrem hd hr]
          exact (ih _).trans (erase_sub _ _)

/-- The key invariant of the loop: an entry that differs after the run is
gone, the run was not a dry run, and the entry is the one the `Dest` of some
link of the plan named in the initial filesystem, a link that was removable
there. -/
theorem RemoveSymlinks_erased (flags : Flags) (pol : Policy) (username : String)
    (l : List LinkInfo) (w : World) (q : Loc)
    (h : (RemoveSymlinks flags pol l username w).2.fs.get q ≠ w.fs.get q) :
    (RemoveSymlinks flags pol l username w).2.fs.get q = none ∧ flags.DryRun = false ∧
      ∃ link ∈ l, (locate w.fs link.Dest).2 = .ok (.entry q) ∧
        removable pol w.fs username link = true := by
  induction l generalizing w with
  | nil => exact absurd rfl h
  | cons link rest ih =>
    cases hrem : removable pol w.fs username link with
    | false =>
      rw [RemoveSymlinks_cons_skip _ _ _ _ _ _ hrem] at h ⊢
      obtain ⟨h1, h2, x, hx, hxp, hxr⟩ := ih w h
      exact ⟨h1, h2, x, List.mem_cons_of_mem _ hx, hxp, hxr⟩
    | true =>
      cases hd : flags.DryRun with
      | true =>
        rw [RemoveSymlinks_cons_dry _ _ _ _ _ _ hrem hd] at h ⊢
        obtain ⟨h1, h2, x, hx, hxp, hxr⟩ := ih _ h
        rw [hd] at h2
        exact absurd h2 (by decide)
      | false =>
        rcases Remove_cases pol w.fs link.Dest with ⟨err, hr⟩ | ⟨loc, hl, hg, hr⟩
        · rw [RemoveSymlinks_cons_err _ _ _ _ _ _ _ hrem hd hr, reported_fs] at h
          exact absurd rfl h
        · rw [RemoveSymlinks_cons_ok _ _ _ _ _ _ _ hrem hd hr] at h ⊢
          have hsubF := RemoveSymlinks_sub flags pol username rest
            ⟨w.fs.erase loc, (reported flags w link).stdout⟩
          have hnone : (RemoveSymlinks flags pol rest username
              ⟨w.fs.erase loc, (reported flags w link).stdout⟩).2.fs.get q = none := by
            cases hf : (RemoveSymlinks flags pol rest username
              ⟨w.fs.erase loc, (reported flags w link).stdout⟩).2.fs.get q with
            | none => rfl
            | some e =>
              exfalso
              apply h
              rw [hf]
              exact ((erase_sub w.fs loc).2 q e (hsubF.2 q e hf)).symm
          refine ⟨hnone, rfl, ?_⟩
          by_cases hq : (w.fs.erase loc).get q = none
          · have hql : q = loc := by
              by_contra hne
              rw [erase_get_other _ _ _ hne] at hq
              exact h (by rw [hnone, hq])
            subst hql
            exact ⟨link, List.mem_cons_self _ _, hl, hrem⟩
          · obtain ⟨_, _, x, hx, hxp, hxr⟩ := ih ⟨w.fs.erase loc, _⟩ (by
              rw [hnone]
              exact fun hc => hq hc.symm)
            refine ⟨x, List.mem_cons_of_mem _ hx, ?_, ?_⟩
            · rw [locate_mono _ _ _ (erase_sub w.fs loc) _ hxp, hxp]
            · rw [← removable_eq_of_present pol _ w.fs username x (erase_sub w.fs loc) q hxp hq]
              exact hxr

theorem RemoveSymlinks_cwd (flags : Flags) (pol : Policy) (username : String)
    (l : List LinkInfo) (w : World) :
    (RemoveSymlinks flags pol l username w).2.fs.cwd = w.fs.cwd :=
  (RemoveSymlinks_sub flags pol username l w).1

/-- An entry that no `Dest` of the plan names is the same after the run. -/
theorem RemoveSymlinks_get_untouched (flags : Flags) (pol : Policy) (username : String)
    (l : List LinkInfo) (w : World) (q : Loc)
    (hq : ∀ link ∈ l, (locate w.fs link.Dest).2 ≠ .ok (.entry q)) :
    (RemoveSymlinks flags pol l username w).2.fs.get q = w.fs.get q := by
  by_contra h
  obtain ⟨_, _, x, hx, hxp, _⟩ := RemoveSymlinks_erased flags pol username l w q h
  exact hq x hx hxp

/-- A readable link without the name, whose resolution meets no entry that a
`Dest` with another path string names: every entry on its resolution is the
same after the run. -/
theorem RemoveSymlinks_keeps_foreign (flags : Flags) (pol : Policy) (username : String)
    (l : List LinkInfo) (w : World) (p t : String)
    (hr : Readlink pol w.fs p = .ok t) (hc : Contains t username = false)
    (hind : ∀ y ∈ l, y.Dest ≠ p → ∀ q ∈ (locate w.fs p).1,
      (locate w.fs y.Dest).2 ≠ .ok (.entry q)) :
    ∀ q ∈ (locate w.fs p).1,
      (RemoveSymlinks flags pol l username w).2.fs.get q = w.fs.get q := by
  intro q hq
  by_contra h
  obtain ⟨_, _, x, hx, hxp, hxr⟩ := RemoveSymlinks_erased flags pol username l w q h
  by_cases hxd : x.Dest = p
  · rw [← hxd] at hr
    rw [removable_of_Readlink pol w.fs username x t hr, hc] at hxr
    exact absurd hxr (by decide)
  · exact hind x hx hxd q hq hxp

/-- Running a plan in two pieces: the second piece is run in the world the
first one leaves, unless the first one stopped on an error. -/
theorem RemoveSymlinks_append (flags : Flags) (pol : Policy) (username : String)
    (pre post : List LinkInfo) (w : World) :
    RemoveSymlinks flags pol (pre ++ post) username w =
      match RemoveSymlinks flags pol pre username w with
      | (some err, w1) => (some err, w1)
      | (none, w1) => RemoveSymlinks flags pol post username w1 := by
  induction pre generalizing w with
  | nil => simp [RemoveSymlinks]
  | cons link rest ih =>
    cases hrem : removable pol w.fs username link with
    | false =>
      rw [List.cons_append, RemoveSymlinks_cons_skip _ _ _ _ _ _ hrem,
        RemoveSymlinks_cons_skip _ _ _ _ _ _ hrem, ih]
    | true =>
      cases hd : flags.DryRun with
      | true =>
        rw [List.cons_append, RemoveSymlinks_cons_dry _ _ _ _ _ _ hrem hd,
          RemoveSymlinks_cons_dry _ _ _ _ _ _ hrem hd, ih]
      | false =>
        rcases Remove_cases pol w.fs link.Dest with ⟨err, hr⟩ | ⟨loc, _, _, hr⟩
        · rw [List.cons_append, RemoveSymlinks_cons_err _ _ _ _ _ _ _ hrem hd hr,
            RemoveSymlinks_cons_err _ _ _ _ _ _ _ hrem hd hr]
        · rw [List.cons_append, RemoveSymlinks_cons_ok _ _ _ _ _ _ _ hrem hd hr,
            RemoveSymlinks_cons_ok _ _ _ _ _ _ _ hrem hd hr, ih]

/-- After a run that returned `nil` with `DryRun` off, every link of the plan
that was removable at the start names no entry any more. -/
theorem RemoveSymlinks_nil_removed (flags : Flags) (pol : Policy) (username : String)
    (l : List LinkInfo) (w w1 : World) (hd : flags.DryRun = false)
    (h : RemoveSymlinks flags pol l username w = (none, w1))
    (y : LinkInfo) (hy : y ∈ l) (hrem : removable pol w.fs username y = true) :
    entryAt w1.fs y.Dest = none := by
  induction l generalizing w with
  | nil => cases hy
  | cons link rest ih =>
    cases hlink : removable pol w.fs username link with
    | false =>
      rw [RemoveSymlinks_cons_skip _ _ _ _ _ _ hlink] at h
      rcases List.mem_cons.1 hy with rfl | hy
      · rw [hlink] at hrem
        exact absurd hrem (by decide)
      · exact ih w h hy hrem
    | true =>
      rcases Remove_cases pol w.fs link.Dest with ⟨err, hr⟩ | ⟨loc, hl, _, hr⟩
      · rw [RemoveSymlinks_cons_err _ _ _ _ _ _ _ hlink hd hr] at h
        simp at h
      · rw [RemoveSymlinks_cons_ok _ _ _ _ _ _ _ hlink hd hr] at h
        rcases List.mem_cons.1 hy with rfl | hy
        · have hs := RemoveSymlinks_sub flags pol username rest
            ⟨w.fs.erase loc, (reported flags w y).stdout⟩
          rw [h] at hs
          exact entryAt_mono_none _ _ _ hs (entryAt_erase w.fs y.Dest loc hl)
        · exact ih _ h hy (removable_mono pol _ w.fs username y (erase_sub _ _) hrem)

/-- A plan none of whose links is removable is run without any effect. -/
theorem RemoveSymlinks_all_kept (flags : Flags) (pol : Policy) (username : String)
    (l : List LinkInfo) (w : World)
    (h : ∀ link ∈ l, removable pol w.fs username link = false) :
    RemoveSymlinks flags pol l username w = (none, w) := by
  induction l with
  | nil => rfl
  | cons link rest ih =>
    rw [RemoveSymlinks_cons_skip _ _ _ _ _ _ (h link (List.mem_cons_self _ _))]
    exact ih (fun x hx => h x (List.mem_cons_of_mem _ hx))

/-- With `DryRun` off, a run that returns `nil` and leaves the filesystem as
it was met no removable link. -/
theorem RemoveSymlinks_nil_same (flags : Flags) (pol : Policy) (username : String)
    (l : List LinkInfo) (w w1 : World) (hd : flags.DryRun = false)
    (h : RemoveSymlinks flags pol l username w = (none, w1))
    (hfs : w1.fs = w.fs)
    (y : LinkInfo) (hy : y ∈ l) : removable pol w.fs username y = false := by
  induction l generalizing w with
  | nil => cases hy
  | cons link rest ih =>
    cases hlink : removable pol w.fs username link with
    | false =>
      rw [RemoveSymlinks_cons_skip _ _ _ _ _ _ hlink] at h
      rcases List.mem_cons.1 hy with rfl | hy
      · exact hlink
      · exact ih w h hfs hy
    | true =>
      exfalso
      rcases Remove_cases pol w.fs link.Dest with ⟨err, hr⟩ | ⟨loc, hl, hg, hr⟩
      · rw [RemoveSymlinks_cons_err _ _ _ _ _ _ _ hlink hd hr] at h
        simp at h
      · rw [RemoveSymlinks_cons_ok _ _ _ _ _ _ _ hlink hd hr] at h
        have hs := RemoveSymlinks_sub flags pol username rest
          ⟨w.fs.erase loc, (reported flags w link).stdout⟩
        rw [h, hfs] at hs
        cases hq : w.fs.get loc with
        | none => simp [hq] at hg
        | some e =>
          have := hs.2 loc e hq
          rw [erase_get_self w.fs loc (locate_entry w.fs link.Dest loc hl).1] at this
          cases this

/-- A link that was kept in a filesystem and is removable in one with fewer
entries cannot be deleted there. -/
theorem Remove_fails_of_flip (pol : Policy) (a b : FS) (username : String) (link : LinkInfo)
    (hsub : a.Sub b) (hb : removable pol b username link = false)
    (ha : removable pol a username link = true) :
    ∃ err, Remove pol a link.Dest = .error err := by
  rcases Remove_cases pol a link.Dest with he | ⟨loc, hl, hg, _⟩
  · exact he
  · exfalso
    have := removable_eq_of_present pol a b username link hsub loc hl (by
      intro hn; simp [hn] at hg)
    rw [ha, hb] at this
    exact absurd this (by decide)

/-- With `DryRun` off, running the plan again in a world whose filesystem is
the one a first run left changes nothing in that filesystem. -/
theorem RemoveSymlinks_again_fs (flags : Flags) (pol : Policy) (username : String)
    (l : List LinkInfo) (w w2 : World) (hd : flags.DryRun = false)
    (h : w2.fs = (RemoveSymlinks flags pol l username w).2.fs) :
    (RemoveSymlinks flags pol l username w2).2.fs = w2.fs := by
  have stop : ∀ (link : LinkInfo) (rest : List LinkInfo) (v : World),
      removable pol v.fs username link = true →
      (∃ err, Remove pol v.fs link.Dest = .error err) →
      (RemoveSymlinks flags pol (link :: rest) username v).2.fs = v.fs := by
    intro link rest v hv ⟨err, he⟩
    rw [RemoveSymlinks_cons_err _ _ _ _ _ _ _ hv hd he, reported_fs]
  induction l generalizing w with
  | nil => rfl
  | cons link rest ih =>
    cases hrem : removable pol w.fs username link with
    | false =>
      rw [RemoveSymlinks_cons_skip _ _ _ _ _ _ hrem] at h
      have hs : w2.fs.Sub w.fs := by
        rw [h]
        exact RemoveSymlinks_sub flags pol username rest w
      cases h2 : removable pol w2.fs username link with
      | false =>
        rw [RemoveSymlinks_cons_skip _ _ _ _ _ _ h2]
        exact ih w h
      | true =>
        exact stop link rest w2 h2 (Remove_fails_of_flip pol _ _ username link hs hrem h2)
    | true =>
      rcases Remove_cases pol w.fs link.Dest with ⟨err, hr⟩ | ⟨loc, hl, _, hr⟩
      · rw [RemoveSymlinks_cons_err _ _ _ _ _ _ _ hrem hd hr, reported_fs] at h
        exact stop link rest w2 (by rw [h]; exact hrem) ⟨err, by rw [h]; exact hr⟩
      · rw [RemoveSymlinks_cons_ok _ _ _ _ _ _ _ hrem hd hr] at h
        have hs : w2.fs.Sub (w.fs.erase loc) := by
          rw [h]
          exact RemoveSymlinks_sub flags pol username rest _
        have habs : entryAt w2.fs link.Dest = none :=
          entryAt_mono_none _ _ _ hs (entryAt_erase w.fs link.Dest loc hl)
        exact stop link rest w2 (removable_absent pol _ username link habs)
          (entryAt_none_Remove pol _ _ habs)

/-- With `DryRun` off: if every link of the plan is removable at the start and
every deletion the run attempts succeeds, the run returns `nil` and no `Dest`
of the plan names an entry afterwards. -/
theorem RemoveSymlinks_all_removed (flags : Flags) (pol : Policy) (username : String)
    (l : List LinkInfo) (w : World) (hd : flags.DryRun = false)
    (hrem : ∀ x ∈ l, removable pol w.fs username x = true)
    (hdel : ∀ (pre : List LinkInfo) (x : LinkInfo) (post : List LinkInfo) (w1 : World),
      l = pre ++ x :: post → RemoveSymlinks flags pol pre username w = (none, w1) →
      removable pol w1.fs username x = true → ∃ fs2, Remove pol w1.fs x.Dest = .ok fs2) :
    (RemoveSymlinks flags pol l username w).1 = none ∧
      ∀ x ∈ l, entryAt (RemoveSymlinks flags pol l username w).2.fs x.Dest = none := by
  induction l generalizing w with
  | nil => exact ⟨rfl, fun x hx => by cases hx⟩
  | cons link rest ih =>
    have hlink := hrem link (List.mem_cons_self _ _)
    obtain ⟨fs2, hr⟩ := hdel [] link rest w rfl rfl hlink
    obtain ⟨loc, hl, _, hfs2⟩ := Remove_ok pol w.fs fs2 link.Dest hr
    subst hfs2
    rw [RemoveSymlinks_cons_ok _ _ _ _ _ _ _ hlink hd hr]
    obtain ⟨ih1, ih2⟩ := ih ⟨w.fs.erase loc, (reported flags w link).stdout⟩
      (fun x hx => removable_mono pol _ w.fs username x (erase_sub _ _)
        (hrem x (List.mem_cons_of_mem _ hx)))
      (fun pre x post w1 hlist hpre hx => by
        refine hdel (link :: pre) x post w1 (by rw [hlist]; rfl) ?_ hx
        rw [RemoveSymlinks_cons_ok _ _ _ _ _ _ _ hlink hd hr]
        exact hpre)
    refine ⟨ih1, ?_⟩
    intro x hx
    rcases List.mem_cons.1 hx with rfl | hx
    · exact entryAt_mono_none _ _ _ (RemoveSymlinks_sub flags pol username rest _)
        (entryAt_erase w.fs x.Dest loc hl)
    · exact ih2 x hx

/-- A `Dest` that names a symbolic link whose target contains the name is
removable. -/
theorem removable_of_symlink (pol : Policy) (fs : FS) (username : String) (link : LinkInfo)
    (t : String) (h : entryAt fs link.Dest = some (.symlink t))
    (hc : Contains t username = true) :
    removable pol fs username link = true := by
  cases hr : removable pol fs username link with
  | true => rfl
  | false =>
    obtain ⟨t2, ht, hc2⟩ := (removable_false_iff pol fs username link).1 hr
    obtain ⟨_, _, loc, hl, hg⟩ := (Readlink_ok_iff pol fs link.Dest t2).1 ht
    simp only [entryAt, hl, hg, Option.some.injEq, Entry.symlink.injEq] at h
    subst h
    rw [hc] at hc2
    exact absurd hc2 (by decide)


/-- With `DryRun` off, when policy refuses no deletion of a planned `Dest`,
every `Dest` names a symbolic link by a path without a final slash, and the
entry of no link is met by the resolution of a later link, every deletion the
run attempts succeeds. -/
theorem RemoveSymlinks_deletes_succeed (flags : Flags) (pol : Policy) (username : String)
    (l : List LinkInfo) (w : World)
    (hsym : ∀ x ∈ l, slashed x.Dest = false ∧ ∃ t, entryAt w.fs x.Dest = some (.symlink t))
    (hind : l.Pairwise (fun y x => ∀ q ∈ (locate w.fs x.Dest).1,
      (locate w.fs y.Dest).2 ≠ .ok (.entry q)))
    (hpol : ∀ fs, ∀ x ∈ l, pol.removeDenied fs x.Dest = none)
    (pre : List LinkInfo) (x : LinkInfo) (post : List LinkInfo) (w1 : World)
    (hl : l = pre ++ x :: post)
    (hpre : RemoveSymlinks flags pol pre username w = (none, w1)) :
    ∃ fs2, Remove pol w1.fs x.Dest = .ok fs2 := by
  subst hl
  have hx : x ∈ pre ++ x :: post := by simp
  obtain ⟨hslash, t, ht⟩ := hsym x hx
  rw [List.pairwise_append] at hind
  have hw1 : w1.fs = (RemoveSymlinks flags pol pre username w).2.fs := by rw [hpre]
  have hag : ∀ q ∈ (locate w.fs x.Dest).1, w1.fs.get q = w.fs.get q := by
    intro q hq
    rw [hw1]
    exact RemoveSymlinks_get_untouched flags pol username pre w q
      (fun y hy => hind.2.2 y hy x (List.mem_cons_self _ _) q hq)
  have hcwd : w1.fs.cwd = w.fs.cwd := by
    rw [hw1]
    exact (RemoveSymlinks_sub flags pol username pre w).1
  have hloc := locate_agree w1.fs w.fs x.Dest hcwd hag
  cases hl2 : (locate w.fs x.Dest).2 with
  | error e => simp [entryAt, hl2] at ht
  | ok tg =>
    cases tg with
    | directory d e => simp [entryAt, hl2] at ht
    | entry loc =>
      simp only [entryAt, hl2] at ht
      have hg : w1.fs.get loc = some (.symlink t) := by
        rw [hag loc (locate_entry w.fs x.Dest loc hl2).2, ht]
      exact ⟨w1.fs.erase loc, by
        simp [Remove, hpol w1.fs x hx, hloc, hl2, hg, hslash]⟩

/-- The test `containsAt` is the infix relation on character sequences. -/
theorem containsAt_iff (s sub : List Char) : containsAt s sub = true ↔ sub <:+: s := by
  induction s with
  | nil => cases sub <;> simp [containsAt]
  | cons c cs ih =>
    rw [containsAt, Bool.or_eq_true, ih, List.isPrefixOf_iff_prefix, List.infix_cons_iff]

/-- The empty name is contained in every target. -/
theorem Contains_empty (s : String) : Contains s "" = true := by
  unfold Contains
  rw [containsAt_iff]
  exact List.nil_infix

/-- Where every entry met by the resolution of a path is the same after a
run, the path names the same entry after the run. -/
theorem RemoveSymlinks_entryAt_untouched (flags : Flags) (pol : Policy) (username : String)
    (l : List LinkInfo) (w : World) (p : String)
    (hp : ∀ q ∈ (locate w.fs p).1, ∀ link ∈ l, (locate w.fs link.Dest).2 ≠ .ok (.entry q)) :
    entryAt (RemoveSymlinks flags pol l username w).2.fs p = entryAt w.fs p :=
  entryAt_agree _ _ p (RemoveSymlinks_sub flags pol username l w).1
    (fun q hq => RemoveSymlinks_get_untouched flags pol username l w q (hp q hq))

/-! ## Properties of the specification -/

/-- C1 as stated fails. In `fsAlias` the `Dest` `/home/u/d/.vimrc` reads as a
link into `profiles/home`, a target without the name `work`; the plan also
holds `/home/u/d`, a link whose target contains `work`. `RemoveSymlinks`
deletes `/home/u/d`, and `/home/u/d/.vimrc` names nothing any more. -/
theorem RemoveSymlinks_foreign_lost :
    Readlink permissive fsAlias "/home/u/d/.vimrc" =
      .ok "/home/u/.config/dfm/profiles/home/.vimrc" ∧
    Contains "/home/u/.config/dfm/profiles/home/.vimrc" "work" = false ∧
    (∃ link ∈ planAlias, link.Dest = "/home/u/d/.vimrc") ∧
    entryAt (RemoveSymlinks ⟨false, false⟩ permissive planAlias "work" ⟨fsAlias, []⟩).2.fs
      "/home/u/d/.vimrc" = none := by
  decide

/-- C1, amended. Ownership protection: a `Dest` of the plan that `Readlink`
reads as a target not containing the profile name, and whose resolution meets
no entry named by a `Dest` of the plan with another path string (neither the
link itself nor a symbolic link or directory on the way to it), still names
the same symbolic link, and reads as the same target, after `RemoveSymlinks`,
for every setting of the flags and whether `nil` or an error is returned. -/
theorem RemoveSymlinks_protects (flags : Flags) (pol : Policy) (l : List LinkInfo)
    (username : String) (w : World) (link : LinkInfo) (t : String)
    (_hl : link ∈ l)
    (hr : Readlink pol w.fs link.Dest = .ok t)
    (hc : Contains t username = false)
    (hind : ∀ y ∈ l, y.Dest ≠ link.Dest → ∀ q ∈ (locate w.fs link.Dest).1,
      (locate w.fs y.Dest).2 ≠ .ok (.entry q)) :
    entryAt (RemoveSymlinks flags pol l username w).2.fs link.Dest = some (.symlink t) ∧
      Readlink pol (RemoveSymlinks flags pol l username w).2.fs link.Dest = .ok t := by
  have hk := RemoveSymlinks_keeps_foreign flags pol username l w link.Dest t hr hc hind
  have hcwd := (RemoveSymlinks_sub flags pol username l w).1
  obtain ⟨_, _, loc, hloc, hg⟩ := (Readlink_ok_iff pol w.fs link.Dest t).1 hr
  refine ⟨?_, Readlink_agree pol _ _ _ t hcwd hk hr⟩
  rw [entryAt_agree _ _ _ hcwd hk]
  simp [entryAt, hloc, hg]

/-- C1, amended, on the scenario of the specification: `~/.vimrc ->
profiles/home/.vimrc` survives `RemoveSymlinks(plan, "work")`, which deletes
`~/.bashrc`. -/
theorem RemoveSymlinks_protects_witness :
    entryAt (RemoveSymlinks ⟨false, false⟩ permissive planTwo "work" ⟨fsSwitched, []⟩).2.fs
        "/home/u/.vimrc" = some (.symlink "/home/u/.config/dfm/profiles/home/.vimrc") ∧
      Readlink permissive
        (RemoveSymlinks ⟨false, false⟩ permissive planTwo "work" ⟨fsSwitched, []⟩).2.fs
        "/home/u/.vimrc" = .ok "/home/u/.config/dfm/profiles/home/.vimrc" :=
  RemoveSymlinks_protects ⟨false, false⟩ permissive planTwo "work" ⟨fsSwitched, []⟩
    linkVimrc "/home/u/.config/dfm/profiles/home/.vimrc" (by decide) (by decide) (by decide)
    (by decide)

/-- C10 as stated fails. In `fsShared` the path `/home/u/real/.vimrc` is not a
`Dest` of the plan, whose only `Dest` is `/home/u/d/.vimrc`; both name the
same entry, and after `RemoveSymlinks` the path `/home/u/real/.vimrc` has
lost it. -/
theorem RemoveSymlinks_other_path_lost :
    (∀ link ∈ [linkThroughD], link.Dest ≠ "/home/u/real/.vimrc") ∧
    entryAt fsShared "/home/u/real/.vimrc" =
      some (.symlink "/home/u/.config/dfm/profiles/work/.vimrc") ∧
    entryAt (RemoveSymlinks ⟨false, false⟩ permissive [linkThroughD] "work"
      ⟨fsShared, []⟩).2.fs "/home/u/real/.vimrc" = none := by
  decide

/-- C10, amended. Frame outside the plan: whatever the flags, the policy and
the initial world, and whether `nil` or an error is returned, `RemoveSymlinks`
only deletes entries that the `Dest` of some link of the plan names in the
initial filesystem. A path whose resolution meets no such entry names after
the call what it named before; an entry that no `Dest` names is the same
before and after; every entry is kept or lost, none is changed or created;
the current directory stays. -/
theorem RemoveSymlinks_frame (flags : Flags) (pol : Policy) (l : List LinkInfo)
    (username : String) (w : World) (p : String)
    (hp : ∀ q ∈ (locate w.fs p).1, ∀ link ∈ l, (locate w.fs link.Dest).2 ≠ .ok (.entry q)) :
    entryAt (RemoveSymlinks flags pol l username w).2.fs p = entryAt w.fs p ∧
    (∀ q, (∀ link ∈ l, (locate w.fs link.Dest).2 ≠ .ok (.entry q)) →
      (RemoveSymlinks flags pol l username w).2.fs.get q = w.fs.get q) ∧
    (∀ q, (RemoveSymlinks flags pol l username w).2.fs.get q = w.fs.get q ∨
      (RemoveSymlinks flags pol l username w).2.fs.get q = none) ∧
    (RemoveSymlinks flags pol l username w).2.fs.cwd = w.fs.cwd := by
  refine ⟨RemoveSymlinks_entryAt_untouched flags pol username l w p hp,
    fun q hq => RemoveSymlinks_get_untouched flags pol username l w q hq, ?_,
    (RemoveSymlinks_sub flags pol username l w).1⟩
  intro q
  by_cases h : (RemoveSymlinks flags pol l username w).2.fs.get q = w.fs.get q
  · exact Or.inl h
  · exact Or.inr (RemoveSymlinks_erased flags pol username l w q h).1

/-- C10, amended, at a concrete input: removing the link `~/.vimrc` of the
active profile `work` leaves the path `~/.bashrc`, which is resolved through
no planned entry, as it was. -/
theorem RemoveSymlinks_frame_witness :
    entryAt (RemoveSymlinks ⟨false, true⟩ permissive planWork "work" ⟨fsThree, []⟩).2.fs
        "/home/u/.bashrc" = entryAt fsThree "/home/u/.bashrc" :=
  (RemoveSymlinks_frame ⟨false, true⟩ permissive planWork "work" ⟨fsThree, []⟩
    "/home/u/.bashrc" (by decide)).1

/-- C3 at the failing input: `~/.vimrc` is a dangling link into
`profiles/home`; `RemoveSymlinks(plan, "work")` with `DryRun` off returns
`nil` and the dangling link is still there. -/
theorem RemoveSymlinks_dangling_kept :
    entryAt fsDangling "/home/u/.config/dfm/profiles/home/.vimrc" = none ∧
    (RemoveSymlinks ⟨false, false⟩ permissive planWork "work" ⟨fsDangling, []⟩).1 = none ∧
    entryAt (RemoveSymlinks ⟨false, false⟩ permissive planWork "work" ⟨fsDangling, []⟩).2.fs
        "/home/u/.vimrc" = some (.symlink "/home/u/.config/dfm/profiles/home/.vimrc") := by
  decide

/-- C4. Dry-run non-mutation: with `DryRun` set, whatever `Verbose` is,
`RemoveSymlinks` returns `nil`, leaves the filesystem as it was, and writes
exactly the line `Removing symlink <Dest>` for each link of the plan that is
removable (its `Readlink` fails or its target contains the name), in plan
order, and nothing else. -/
theorem RemoveSymlinks_dry_run (verbose : Bool) (pol : Policy) (l : List LinkInfo)
    (username : String) (w : World) :
    RemoveSymlinks ⟨true, verbose⟩ pol l username w =
      (none, ⟨w.fs, w.stdout ++
        (l.filter (fun link => removable pol w.fs username link)).map
          (fun link => "Removing symlink " ++ link.Dest ++ "\n")⟩) := by
  induction l generalizing w with
  | nil => simp [RemoveSymlinks]
  | cons link rest ih =>
    cases hrem : removable pol w.fs username link with
    | false =>
      rw [RemoveSymlinks_cons_skip _ _ _ _ _ _ hrem, ih w]
      simp [List.filter_cons, hrem]
    | true =>
      rw [RemoveSymlinks_cons_dry _ _ _ _ _ _ hrem rfl, ih]
      simp [List.filter_cons, hrem, World.print]

/-- C7 as stated fails: the names `vim` and `home` differ, `~/.vimrc` holds a
link whose target contains `home`, and `RemoveSymlinks(plan, "vim")` deletes
it, because the target also contains `vim`. -/
theorem RemoveSymlinks_other_name_removed :
    "vim" ≠ "home" ∧
    entryAt fsSwitched "/home/u/.vimrc" =
      some (.symlink "/home/u/.config/dfm/profiles/home/.vimrc") ∧
    Contains "/home/u/.config/dfm/profiles/home/.vimrc" "home" = true ∧
    entryAt (RemoveSymlinks ⟨false, false⟩ permissive planWork "vim" ⟨fsSwitched, []⟩).2.fs
        "/home/u/.vimrc" = none := by
  decide

/-- C7, amended. For two different profile names `A` and `B`, a `Dest` of the
plan that reads as a target containing `B` and not containing `A` as a
substring, and whose resolution meets no entry named by a `Dest` of the plan
with another path string, still names the same link after
`RemoveSymlinks(l, A)`. -/
theorem RemoveSymlinks_other_profile (flags : Flags) (pol : Policy) (l : List LinkInfo)
    (A B : String) (w : World) (link : LinkInfo) (t : String)
    (_hAB : A ≠ B) (_hl : link ∈ l)
    (hr : Readlink pol w.fs link.Dest = .ok t)
    (_hB : Contains t B = true) (hA : Contains t A = false)
    (hind : ∀ y ∈ l, y.Dest ≠ link.Dest → ∀ q ∈ (locate w.fs link.Dest).1,
      (locate w.fs y.Dest).2 ≠ .ok (.entry q)) :
    entryAt (RemoveSymlinks flags pol l A w).2.fs link.Dest = some (.symlink t) ∧
      Readlink pol (RemoveSymlinks flags pol l A w).2.fs link.Dest = .ok t := by
  have hk := RemoveSymlinks_keeps_foreign flags pol A l w link.Dest t hr hA hind
  have hcwd := (RemoveSymlinks_sub flags pol A l w).1
  obtain ⟨_, _, loc, hloc, hg⟩ := (Readlink_ok_iff pol w.fs link.Dest t).1 hr
  refine ⟨?_, Readlink_agree pol _ _ _ t hcwd hk hr⟩
  rw [entryAt_agree _ _ _ hcwd hk]
  simp [entryAt, hloc, hg]

/-- C7, amended, at a concrete input: removing `work` leaves the link of
`home` at `~/.vimrc` and deletes the link of `work` at `~/.bashrc`. -/
theorem RemoveSymlinks_other_profile_witness :
    entryAt (RemoveSymlinks ⟨false, true⟩ permissive planTwo "work"
        ⟨fsSwitched, []⟩).2.fs "/home/u/.vimrc" =
        some (.symlink "/home/u/.config/dfm/profiles/home/.vimrc") ∧
      Readlink permissive (RemoveSymlinks ⟨false, true⟩ permissive planTwo "work"
        ⟨fsSwitched, []⟩).2.fs "/home/u/.vimrc" =
        .ok "/home/u/.config/dfm/profiles/home/.vimrc" :=
  RemoveSymlinks_other_profile ⟨false, true⟩ permissive planTwo "work" "home"
    ⟨fsSwitched, []⟩ linkVimrc "/home/u/.config/dfm/profiles/home/.vimrc"
    (by decide) (by decide) (by decide) (by decide) (by decide)
    (by decide)

/-- C9 as stated fails: in `fsActive` the first `Dest` of `planTwo` names
nothing; with `DryRun` off `RemoveSymlinks` returns the error of `os.Remove`
for that path and does not go on to the second link, which is still there. -/
theorem RemoveSymlinks_missing_dest_errors :
    entryAt fsActive "/home/u/.bashrc" = none ∧
    (RemoveSymlinks ⟨false, false⟩ permissive planTwo "work" ⟨fsActive, []⟩).1 =
      some ⟨"remove", "/home/u/.bashrc", .ENOENT⟩ ∧
    entryAt (RemoveSymlinks ⟨false, false⟩ permissive planTwo "work" ⟨fsActive, []⟩).2.fs
        "/home/u/.vimrc" = some (.symlink "/home/u/.config/dfm/profiles/work/.vimrc") := by
  decide

/-- C9, amended. With `DryRun` off, a link whose `Dest` names no entry when it
is reached (the links before it were processed without error) is taken to be
removable, the failure of `Readlink` is not returned, and nothing changes at
that `Dest`; but `os.Remove` fails on that path as well, and `RemoveSymlinks`
returns the error of `os.Remove` at once, leaving the filesystem as the links
before it left it and the links after it unprocessed. -/
theorem RemoveSymlinks_missing_dest (flags : Flags) (pol : Policy)
    (pre : List LinkInfo) (x : LinkInfo) (post : List LinkInfo)
    (username : String) (w w1 : World)
    (hd : flags.DryRun = false)
    (hpre : RemoveSymlinks flags pol pre username w = (none, w1))
    (habs : entryAt w1.fs x.Dest = none) :
    removable pol w1.fs username x = true ∧
    ∃ err w2, Remove pol w1.fs x.Dest = .error err ∧
      RemoveSymlinks flags pol (pre ++ x :: post) username w = (some err, w2) ∧
      w2.fs = w1.fs ∧ entryAt w2.fs x.Dest = none ∧
      RemoveSymlinks flags pol (pre ++ x :: post) username w =
        RemoveSymlinks flags pol (pre ++ [x]) username w := by
  have hrem := removable_absent pol w1.fs username x habs
  obtain ⟨err, hr⟩ := entryAt_none_Remove pol w1.fs x.Dest habs
  refine ⟨hrem, err, reported flags w1 x, hr, ?_, reported_fs flags w1 x, ?_, ?_⟩
  · rw [RemoveSymlinks_append, hpre]
    exact RemoveSymlinks_cons_err _ _ _ _ _ _ _ hrem hd hr
  · rw [reported_fs]
    exact habs
  · rw [RemoveSymlinks_append, RemoveSymlinks_append, hpre]
    simp only []
    rw [RemoveSymlinks_cons_err _ _ _ _ _ _ _ hrem hd hr,
      RemoveSymlinks_cons_err _ _ _ _ _ _ _ hrem hd hr]

/-- C9, amended, at a concrete input: `~/.profile` names nothing when it is
reached, after `~/.vimrc` was deleted; `~/.zshrc` is not reached. -/
theorem RemoveSymlinks_missing_dest_witness :
    removable permissive
        (RemoveSymlinks ⟨false, false⟩ permissive [linkVimrc] "work" ⟨fsThree, []⟩).2.fs
        "work" linkProfile = true ∧
    ∃ err w2,
      Remove permissive
        (RemoveSymlinks ⟨false, false⟩ permissive [linkVimrc] "work" ⟨fsThree, []⟩).2.fs
        linkProfile.Dest = .error err ∧
      RemoveSymlinks ⟨false, false⟩ permissive ([linkVimrc] ++ linkProfile :: [linkZshrc])
          "work" ⟨fsThree, []⟩ = (some err, w2) ∧
      w2.fs =
        (RemoveSymlinks ⟨false, false⟩ permissive [linkVimrc] "work" ⟨fsThree, []⟩).2.fs ∧
      entryAt w2.fs linkProfile.Dest = none ∧
      RemoveSymlinks ⟨false, false⟩ permissive ([linkVimrc] ++ linkProfile :: [linkZshrc])
          "work" ⟨fsThree, []⟩ =
        RemoveSymlinks ⟨false, false⟩ permissive ([linkVimrc] ++ [linkProfile])
          "work" ⟨fsThree, []⟩ :=
  RemoveSymlinks_missing_dest ⟨false, false⟩ permissive [linkVimrc] linkProfile [linkZshrc]
    "work" ⟨fsThree, []⟩
    (RemoveSymlinks ⟨false, false⟩ permissive [linkVimrc] "work" ⟨fsThree, []⟩).2
    rfl (by decide) (by decide)

/-- C6 as stated fails. In `fsShared` the plan is `pre = [/home/u/d/.vimrc]`,
then `/home/u/.bashrc`, whose `os.Remove` fails, then `post =
[/home/u/real/.vimrc]`. The `Dest` of `post` equals no `Dest` of `pre`, and
yet it has changed when `RemoveSymlinks` returns the error: the link of `pre`
named the same entry. -/
theorem RemoveSymlinks_post_changed :
    (RemoveSymlinks ⟨false, false⟩ permissive [linkThroughD] "work" ⟨fsShared, []⟩).1 = none ∧
    (RemoveSymlinks ⟨false, false⟩ permissive ([linkThroughD] ++ linkBashrc :: [linkReal])
      "work" ⟨fsShared, []⟩).1 = some ⟨"remove", "/home/u/.bashrc", .ENOENT⟩ ∧
    (∀ y ∈ [linkThroughD], y.Dest ≠ linkReal.Dest) ∧
    entryAt fsShared linkReal.Dest =
      some (.symlink "/home/u/.config/dfm/profiles/work/.vimrc") ∧
    entryAt (RemoveSymlinks ⟨false, false⟩ permissive
      ([linkThroughD] ++ linkBashrc :: [linkReal]) "work" ⟨fsShared, []⟩).2.fs
      linkReal.Dest = none := by
  decide

/-- C6, amended. Abort on the first link-deletion failure, `DryRun` off: if
the links of `pre` were processed without error and `os.Remove` fails on the
`Dest` of the next link `x`, then `RemoveSymlinks (pre ++ x :: post)` returns
exactly that error; the filesystem is the one `pre` left, so every link of
`pre` that was removable names no entry any more; no link of `post` is
processed (the result is that of the plan without `post`), and a `Dest` of
`post` whose resolution meets no entry named by a `Dest` of `pre` names what
it named at the start. -/
theorem RemoveSymlinks_abort (flags : Flags) (pol : Policy)
    (pre : List LinkInfo) (x : LinkInfo) (post : List LinkInfo)
    (username : String) (w w1 : World) (err : PathError)
    (hd : flags.DryRun = false)
    (hpre : RemoveSymlinks flags pol pre username w = (none, w1))
    (hrem : removable pol w1.fs username x = true)
    (hfail : Remove pol w1.fs x.Dest = .error err) :
    ∃ w2, RemoveSymlinks flags pol (pre ++ x :: post) username w = (some err, w2) ∧
      w2.fs = w1.fs ∧
      (∀ y ∈ pre, removable pol w.fs username y = true → entryAt w2.fs y.Dest = none) ∧
      (∀ z ∈ post,
        (∀ q ∈ (locate w.fs z.Dest).1, ∀ y ∈ pre, (locate w.fs y.Dest).2 ≠ .ok (.entry q)) →
        entryAt w2.fs z.Dest = entryAt w.fs z.Dest) ∧
      RemoveSymlinks flags pol (pre ++ x :: post) username w =
        RemoveSymlinks flags pol (pre ++ [x]) username w := by
  refine ⟨reported flags w1 x, ?_, reported_fs flags w1 x, ?_, ?_, ?_⟩
  · rw [RemoveSymlinks_append, hpre]
    exact RemoveSymlinks_cons_err _ _ _ _ _ _ _ hrem hd hfail
  · intro y hy hyr
    rw [reported_fs]
    exact RemoveSymlinks_nil_removed flags pol username pre w w1 hd hpre y hy hyr
  · intro z _ hz
    rw [reported_fs]
    have := RemoveSymlinks_entryAt_untouched flags pol username pre w z.Dest hz
    rw [hpre] at this
    exact this
  · rw [RemoveSymlinks_append, RemoveSymlinks_append, hpre]
    simp only []
    rw [RemoveSymlinks_cons_err _ _ _ _ _ _ _ hrem hd hfail,
      RemoveSymlinks_cons_err _ _ _ _ _ _ _ hrem hd hfail]

/-- C6, amended, at a concrete input: `~/.vimrc` is deleted, deleting
`~/.bashrc` is refused, `~/.zshrc` is not reached. -/
theorem RemoveSymlinks_abort_witness :
    ∃ w2, RemoveSymlinks ⟨false, false⟩ lockedBashrc ([linkVimrc] ++ linkBashrc :: [linkZshrc])
          "work" ⟨fsThree, []⟩ = (some ⟨"remove", "/home/u/.bashrc", .EACCES⟩, w2) ∧
      w2.fs =
        (RemoveSymlinks ⟨false, false⟩ lockedBashrc [linkVimrc] "work" ⟨fsThree, []⟩).2.fs ∧
      (∀ y ∈ [linkVimrc], removable lockedBashrc fsThree "work" y = true →
        entryAt w2.fs y.Dest = none) ∧
      (∀ z ∈ [linkZshrc],
        (∀ q ∈ (locate fsThree z.Dest).1, ∀ y ∈ [linkVimrc],
          (locate fsThree y.Dest).2 ≠ .ok (.entry q)) →
        entryAt w2.fs z.Dest = entryAt fsThree z.Dest) ∧
      RemoveSymlinks ⟨false, false⟩ lockedBashrc ([linkVimrc] ++ linkBashrc :: [linkZshrc])
          "work" ⟨fsThree, []⟩ =
        RemoveSymlinks ⟨false, false⟩ lockedBashrc ([linkVimrc] ++ [linkBashrc])
          "work" ⟨fsThree, []⟩ :=
  RemoveSymlinks_abort ⟨false, false⟩ lockedBashrc [linkVimrc] linkBashrc [linkZshrc]
    "work" ⟨fsThree, []⟩
    (RemoveSymlinks ⟨false, false⟩ lockedBashrc [linkVimrc] "work" ⟨fsThree, []⟩).2
    ⟨"remove", "/home/u/.bashrc", .EACCES⟩ rfl (by decide) (by decide) (by decide)

/-- C2 as stated fails: with `DryRun` off the first `RemoveSymlinks` deletes
`~/.vimrc` and returns `nil`; the second one, on the filesystem the first one
left, returns the error of `os.Remove` on the path that now names nothing. -/
theorem RemoveSymlinks_second_run_errors :
    (RemoveSymlinks ⟨false, false⟩ permissive planWork "work" ⟨fsActive, []⟩).1 = none ∧
    (RemoveSymlinks ⟨false, false⟩ permissive planWork "work"
      (RemoveSymlinks ⟨false, false⟩ permissive planWork "work" ⟨fsActive, []⟩).2).1 =
        some ⟨"remove", "/home/u/.vimrc", .ENOENT⟩ := by
  decide

/-- C2, amended. With `DryRun` off, a second `RemoveSymlinks` with the same
plan and name, run on the world the first one left, leaves the filesystem
exactly as the first one left it; it returns `nil` exactly when every `Dest`
of the plan then reads as a target that does not contain the name, and it
returns an error whenever some `Dest` of the plan names no entry then. After
a first call that returned `nil`, every link that was removable at the start
names no entry, so the second call then returns an error. -/
theorem RemoveSymlinks_twice (flags : Flags) (pol : Policy) (l : List LinkInfo)
    (username : String) (w : World) (hd : flags.DryRun = false) :
    (RemoveSymlinks flags pol l username
        (RemoveSymlinks flags pol l username w).2).2.fs =
      (RemoveSymlinks flags pol l username w).2.fs ∧
    ((RemoveSymlinks flags pol l username
        (RemoveSymlinks flags pol l username w).2).1 = none ↔
      ∀ link ∈ l, ∃ t,
        Readlink pol (RemoveSymlinks flags pol l username w).2.fs link.Dest = .ok t ∧
        Contains t username = false) ∧
    ((∃ link ∈ l, entryAt (RemoveSymlinks flags pol l username w).2.fs link.Dest = none) →
      (RemoveSymlinks flags pol l username
        (RemoveSymlinks flags pol l username w).2).1 ≠ none) ∧
    ((RemoveSymlinks flags pol l username w).1 = none →
      ∀ link ∈ l, removable pol w.fs username link = true →
        entryAt (RemoveSymlinks flags pol l username w).2.fs link.Dest = none) := by
  have hfs := RemoveSymlinks_again_fs flags pol username l w
    (RemoveSymlinks flags pol l username w).2 hd rfl
  have hiff : (RemoveSymlinks flags pol l username
        (RemoveSymlinks flags pol l username w).2).1 = none ↔
      ∀ link ∈ l, ∃ t,
        Readlink pol (RemoveSymlinks flags pol l username w).2.fs link.Dest = .ok t ∧
        Contains t username = false := by
    constructor
    · intro h1 link hl
      apply (removable_false_iff pol _ username link).1
      exact RemoveSymlinks_nil_same flags pol username l
        (RemoveSymlinks flags pol l username w).2
        (RemoveSymlinks flags pol l username (RemoveSymlinks flags pol l username w).2).2
        hd (Prod.ext h1 rfl) hfs link hl
    · intro h1
      rw [RemoveSymlinks_all_kept flags pol username l _
        (fun link hl => (removable_false_iff pol _ username link).2 (h1 link hl))]
  refine ⟨hfs, hiff, ?_, ?_⟩
  · rintro ⟨link, hl, habs⟩ hnone
    obtain ⟨t, ht, _⟩ := hiff.1 hnone link hl
    obtain ⟨err, he⟩ := entryAt_none_Readlink pol _ _ habs
    rw [he] at ht
    cases ht
  · intro hnil link hl hrem
    exact RemoveSymlinks_nil_removed flags pol username l w
      (RemoveSymlinks flags pol l username w).2 hd (Prod.ext hnil rfl) link hl hrem

/-- C2, amended, at a concrete input: the first call returns `nil`, deletes
`~/.bashrc` and keeps `~/.vimrc`, the link of profile `home`; the second call
changes nothing and does not return `nil`. -/
theorem RemoveSymlinks_twice_witness :
    ((RemoveSymlinks ⟨false, true⟩ permissive planTwo "work"
        (RemoveSymlinks ⟨false, true⟩ permissive planTwo "work" ⟨fsSwitched, []⟩).2).2.fs =
      (RemoveSymlinks ⟨false, true⟩ permissive planTwo "work" ⟨fsSwitched, []⟩).2.fs) ∧
    entryAt (RemoveSymlinks ⟨false, true⟩ permissive planTwo "work" ⟨fsSwitched, []⟩).2.fs
      linkBashrc.Dest = none ∧
    (RemoveSymlinks ⟨false, true⟩ permissive planTwo "work"
      (RemoveSymlinks ⟨false, true⟩ permissive planTwo "work" ⟨fsSwitched, []⟩).2).1 ≠ none :=
  ⟨(RemoveSymlinks_twice ⟨false, true⟩ permissive planTwo "work" ⟨fsSwitched, []⟩ rfl).1,
    (RemoveSymlinks_twice ⟨false, true⟩ permissive planTwo "work" ⟨fsSwitched, []⟩ rfl).2.2.2
      (by decide) linkBashrc (by decide) (by decide),
    (RemoveSymlinks_twice ⟨false, true⟩ permissive planTwo "work" ⟨fsSwitched, []⟩ rfl).2.2.1
      ⟨linkBashrc, by decide, by decide⟩⟩

/-- C5. Directory-delete failure touches no links: when `os.RemoveAll(userDir)`
returns an error, `Run` writes `ERROR:` followed by that error and exits with
status 1, and the filesystem is the one `os.RemoveAll` left: `RemoveSymlinks`
is not run, so a planned `Dest` that the failed recursive delete itself did
not touch names what it named before the command. -/
theorem Run_RemoveAll_fails (flags : Flags) (pol : Policy)
    (ProfileDir HOME : String) (Join : String → String → String)
    (GenerateSymlinks : FS → String → String → List LinkInfo)
    (RemoveAll : FS → String → Option PathError × FS)
    (profile : String) (more : List String) (w : World)
    (rmerr : PathError) (fs1 : FS)
    (h : RemoveAll w.fs (Join ProfileDir profile) = (some rmerr, fs1)) :
    Run flags pol ProfileDir HOME Join GenerateSymlinks RemoveAll profile more w =
      ⟨1, ⟨fs1, w.stdout ++ ["ERROR: " ++ rmerr.Error ++ "\n"]⟩⟩ ∧
    ∀ link ∈ GenerateSymlinks w.fs (Join ProfileDir profile) HOME,
      entryAt fs1 link.Dest = entryAt w.fs link.Dest →
      entryAt (Run flags pol ProfileDir HOME Join GenerateSymlinks RemoveAll profile more
        w).world.fs link.Dest = entryAt w.fs link.Dest := by
  have hrun : Run flags pol ProfileDir HOME Join GenerateSymlinks RemoveAll profile more w =
      ⟨1, ⟨fs1, w.stdout ++ ["ERROR: " ++ rmerr.Error ++ "\n"]⟩⟩ := by
    simp [Run, h, World.print]
  refine ⟨hrun, ?_⟩
  intro link _ hsame
  rw [hrun]
  exact hsame

/-- C5 at a concrete input: the recursive delete of `profiles/work` is
refused. -/
theorem Run_RemoveAll_fails_witness :
    Run ⟨false, true⟩ permissive "/home/u/.config/dfm/profiles" "/home/u" joinPath planVimrc
        removeAllDenied "work" [] ⟨fsInstalled, []⟩ =
      ⟨1, ⟨fsInstalled,
        ["ERROR: unlinkat /home/u/.config/dfm/profiles/work: permission denied\n"]⟩⟩ :=
  (Run_RemoveAll_fails ⟨false, true⟩ permissive "/home/u/.config/dfm/profiles" "/home/u"
    joinPath planVimrc removeAllDenied "work" [] ⟨fsInstalled, []⟩
    ⟨"unlinkat", "/home/u/.config/dfm/profiles/work", .EACCES⟩ fsInstalled rfl).1

/-- C8. Removing the active profile leaves no links behind, `DryRun` off.
First part: for a plan whose `Dest`s are pairwise distinct and each name a
symbolic link whose target contains the name, when every deletion the run
attempts succeeds, `RemoveSymlinks` returns `nil` and no `Dest` of the plan
names an entry afterwards. Second part: hence `Run`, when `os.RemoveAll`
succeeds and leaves the planned `Dest`s as they were, continues from the
filesystem `os.RemoveAll` left (the profile directory deleted), exits with
status 0, and leaves that filesystem without the planned links: no planned
`Dest` names an entry, and every entry that no planned `Dest` names is as
`os.RemoveAll` left it. -/
theorem Remove_active_profile (flags : Flags) (pol : Policy) (hd : flags.DryRun = false) :
    (∀ (l : List LinkInfo) (username : String) (w : World),
      (l.map LinkInfo.Dest).Nodup →
      (∀ x ∈ l, ∃ t, entryAt w.fs x.Dest = some (.symlink t) ∧ Contains t username = true) →
      (∀ (pre : List LinkInfo) (x : LinkInfo) (post : List LinkInfo) (w1 : World),
        l = pre ++ x :: post → RemoveSymlinks flags pol pre username w = (none, w1) →
        removable pol w1.fs username x = true → ∃ fs2, Remove pol w1.fs x.Dest = .ok fs2) →
      (RemoveSymlinks flags pol l username w).1 = none ∧
        ∀ x ∈ l, entryAt (RemoveSymlinks flags pol l username w).2.fs x.Dest = none) ∧
    (∀ (ProfileDir HOME : String) (Join : String → String → String)
      (GenerateSymlinks : FS → String → String → List LinkInfo)
      (RemoveAll : FS → String → Option PathError × FS)
      (profile : String) (more : List String) (w : World) (fs1 : FS),
      RemoveAll w.fs (Join ProfileDir profile) = (none, fs1) →
      ((GenerateSymlinks w.fs (Join ProfileDir profile) HOME).map LinkInfo.Dest).Nodup →
      (∀ x ∈ GenerateSymlinks w.fs (Join ProfileDir profile) HOME,
        ∃ t, entryAt w.fs x.Dest = some (.symlink t) ∧ Contains t profile = true) →
      (∀ x ∈ GenerateSymlinks w.fs (Join ProfileDir profile) HOME,
        entryAt fs1 x.Dest = entryAt w.fs x.Dest) →
      (∀ (pre : List LinkInfo) (x : LinkInfo) (post : List LinkInfo) (w1 : World),
        GenerateSymlinks w.fs (Join ProfileDir profile) HOME = pre ++ x :: post →
        RemoveSymlinks flags pol pre profile
          (if flags.Verbose then (World.mk fs1 w.stdout).print
            ("Removed profile directory: " ++ Join ProfileDir profile ++ "\n")
           else World.mk fs1 w.stdout) = (none, w1) →
        removable pol w1.fs profile x = true → ∃ fs2, Remove pol w1.fs x.Dest = .ok fs2) →
      Run flags pol ProfileDir HOME Join GenerateSymlinks RemoveAll profile more w =
        ⟨0, (RemoveSymlinks flags pol (GenerateSymlinks w.fs (Join ProfileDir profile) HOME)
          profile
          (if flags.Verbose then (World.mk fs1 w.stdout).print
            ("Removed profile directory: " ++ Join ProfileDir profile ++ "\n")
           else World.mk fs1 w.stdout)).2⟩ ∧
      (∀ x ∈ GenerateSymlinks w.fs (Join ProfileDir profile) HOME,
        entryAt (Run flags pol ProfileDir HOME Join GenerateSymlinks RemoveAll profile more
          w).world.fs x.Dest = none) ∧
      (∀ q, (∀ x ∈ GenerateSymlinks w.fs (Join ProfileDir profile) HOME,
          (locate fs1 x.Dest).2 ≠ .ok (.entry q)) →
        (Run flags pol ProfileDir HOME Join GenerateSymlinks RemoveAll profile more
          w).world.fs.get q = fs1.get q)) := by
  have part1 : ∀ (l : List LinkInfo) (username : String) (w : World),
      (∀ x ∈ l, ∃ t, entryAt w.fs x.Dest = some (.symlink t) ∧ Contains t username = true) →
      (∀ (pre : List LinkInfo) (x : LinkInfo) (post : List LinkInfo) (w1 : World),
        l = pre ++ x :: post → RemoveSymlinks flags pol pre username w = (none, w1) →
        removable pol w1.fs username x = true → ∃ fs2, Remove pol w1.fs x.Dest = .ok fs2) →
      (RemoveSymlinks flags pol l username w).1 = none ∧
        ∀ x ∈ l, entryAt (RemoveSymlinks flags pol l username w).2.fs x.Dest = none := by
    intro l username w hlinks hdel
    refine RemoveSymlinks_all_removed flags pol username l w hd ?_ hdel
    intro x hx
    obtain ⟨t, ht, hc⟩ := hlinks x hx
    exact removable_of_symlink pol w.fs username x t ht hc
  refine ⟨fun l username w _ hlinks hdel => part1 l username w hlinks hdel, ?_⟩
  intro ProfileDir HOME Join GenerateSymlinks RemoveAll profile more w fs1 hall _ hlinks
    hframe hdel
  have hfs2 : (if flags.Verbose then (World.mk fs1 w.stdout).print
      ("Removed profile directory: " ++ Join ProfileDir profile ++ "\n")
     else World.mk fs1 w.stdout).fs = fs1 := by
    cases flags.Verbose <;> rfl
  obtain ⟨h1, h2⟩ := part1 (GenerateSymlinks w.fs (Join ProfileDir profile) HOME) profile
    (if flags.Verbose then (World.mk fs1 w.stdout).print
      ("Removed profile directory: " ++ Join ProfileDir profile ++ "\n")
     else World.mk fs1 w.stdout)
    (fun x hx => by
      obtain ⟨t, ht, hc⟩ := hlinks x hx
      refine ⟨t, ?_, hc⟩
      rw [hfs2, hframe x hx, ht])
    hdel
  have hrun : Run flags pol ProfileDir HOME Join GenerateSymlinks RemoveAll profile more w =
      ⟨0, (RemoveSymlinks flags pol (GenerateSymlinks w.fs (Join ProfileDir profile) HOME)
        profile (if flags.Verbose then
          (World.mk fs1 w.stdout).print
            ("Removed profile directory: " ++ Join ProfileDir profile ++ "\n")
         else World.mk fs1 w.stdout)).2⟩ := by
    unfold Run
    simp only [hall]
    generalize RemoveSymlinks flags pol (GenerateSymlinks w.fs (Join ProfileDir profile) HOME)
        profile (if flags.Verbose then
          (World.mk fs1 w.stdout).print
            ("Removed profile directory: " ++ Join ProfileDir profile ++ "\n")
         else World.mk fs1 w.stdout) = r at h1 ⊢
    obtain ⟨e, w3⟩ := r
    simp only at h1
    subst h1
    rfl
  refine ⟨hrun, ?_, ?_⟩
  · rw [hrun]
    exact h2
  · intro q hq
    rw [hrun]
    have := RemoveSymlinks_get_untouched flags pol profile
      (GenerateSymlinks w.fs (Join ProfileDir profile) HOME)
      (if flags.Verbose then (World.mk fs1 w.stdout).print
        ("Removed profile directory: " ++ Join ProfileDir profile ++ "\n")
       else World.mk fs1 w.stdout) q (by rw [hfs2]; exact hq)
    rw [hfs2] at this
    exact this

/-- C8 at concrete inputs: three links of the active profile `work`, and the
whole command on an installed profile `work`, whose directory is gone and
whose link is deleted afterwards. -/
theorem Remove_active_profile_witness :
    ((RemoveSymlinks ⟨false, false⟩ permissive [linkVimrc, linkBashrc, linkZshrc] "work"
        ⟨fsThree, []⟩).1 = none ∧
      ∀ x ∈ [linkVimrc, linkBashrc, linkZshrc],
        entryAt (RemoveSymlinks ⟨false, false⟩ permissive [linkVimrc, linkBashrc, linkZshrc]
          "work" ⟨fsThree, []⟩).2.fs x.Dest = none) ∧
    (Run ⟨false, true⟩ permissive "/home/u/.config/dfm/profiles" "/home/u" joinPath planVimrc
        removeAllTree "work" [] ⟨fsInstalled, []⟩ =
      ⟨0, ⟨⟨homeDirs, ["home", "u"]⟩,
        ["Removed profile directory: /home/u/.config/dfm/profiles/work\n",
         "Removing symlink /home/u/.vimrc\n"]⟩⟩) :=
  ⟨(Remove_active_profile ⟨false, false⟩ permissive rfl).1
      [linkVimrc, linkBashrc, linkZshrc] "work" ⟨fsThree, []⟩ (by decide)
      (by
        intro x hx
        have hx2 : x = linkVimrc ∨ x = linkBashrc ∨ x = linkZshrc := by simpa using hx
        rcases hx2 with rfl | rfl | rfl
        · exact ⟨"/home/u/.config/dfm/profiles/work/.vimrc", by decide, by decide⟩
        · exact ⟨"/home/u/.config/dfm/profiles/work/.bashrc", by decide, by decide⟩
        · exact ⟨"/home/u/.config/dfm/profiles/work/.zshrc", by decide, by decide⟩)
      (fun pre x post w1 hl hpre _ =>
        RemoveSymlinks_deletes_succeed ⟨false, false⟩ permissive "work"
          [linkVimrc, linkBashrc, linkZshrc] ⟨fsThree, []⟩
          (by
            intro y hy
            have hy2 : y = linkVimrc ∨ y = linkBashrc ∨ y = linkZshrc := by simpa using hy
            rcases hy2 with rfl | rfl | rfl
            · exact ⟨by decide, "/home/u/.config/dfm/profiles/work/.vimrc", by decide⟩
            · exact ⟨by decide, "/home/u/.config/dfm/profiles/work/.bashrc", by decide⟩
            · exact ⟨by decide, "/home/u/.config/dfm/profiles/work/.zshrc", by decide⟩)
          (by decide) (fun _ _ _ => rfl) pre x post w1 hl hpre),
    ((Remove_active_profile ⟨false, true⟩ permissive rfl).2
      "/home/u/.config/dfm/profiles" "/home/u" joinPath planVimrc removeAllTree "work" []
      ⟨fsInstalled, []⟩ (removeAllTree fsInstalled "/home/u/.config/dfm/profiles/work").2
      rfl (by decide)
      (by
        intro x hx
        have hx2 : x = ⟨"/home/u/.config/dfm/profiles/work/.vimrc", "/home/u/.vimrc"⟩ := by
          simpa [planVimrc, joinPath] using hx
        subst hx2
        exact ⟨"/home/u/.config/dfm/profiles/work/.vimrc", by decide, by decide⟩)
      (by decide)
      (fun pre x post w1 hl hpre _ =>
        RemoveSymlinks_deletes_succeed ⟨false, true⟩ permissive "work"
          (planVimrc fsInstalled "/home/u/.config/dfm/profiles/work" "/home/u") _
          (by
            intro y hy
            have hy2 : y = ⟨"/home/u/.config/dfm/profiles/work/.vimrc", "/home/u/.vimrc"⟩ := by
              simpa [planVimrc] using hy
            subst hy2
            exact ⟨by decide, "/home/u/.config/dfm/profiles/work/.vimrc", by decide⟩)
          (by decide) (fun _ _ _ => rfl) pre x post w1 hl hpre)).1.trans (by decide)⟩

end Dfm
